import Mathlib

/-!
# Burma 2D app-config server: the configuration store

A shallow embedding of `main.go`: the two SQLite tables, the SQL statements the
program issues, the Go functions around them, and the part of the Go standard
library (`unicode/utf8`, `encoding/json` on `[]string`) that decides what is
written to and read from the `whats_new` column.

Conventions.
* A Go `string` is a sequence of bytes; a byte is a natural number below 256.
  Shifts and masks of the Go library are written as division, remainder and
  sums of the disjoint bit fields.
* A Go `int` is an `Int`: the program does no arithmetic on its integers.
* A Go slice that may be `nil` is an `Option (List _)`: `none` is the nil slice,
  `some []` the empty non-nil slice.
* The columns `created_at` and `updated_at` hold wall-clock time and are never
  selected by the program; they are left out of the rows.
* A database call can fail for a reason outside the program (I/O error, locked
  or full database). The store carries the list of such faults still to come;
  a statement that fails changes nothing, and the program opens no transaction,
  so statements that succeeded before it stay in effect.
* Loops over a byte string that advance by a computed width take fuel. The
  callers pass the length of the input, and every iteration consumes at least
  one byte.
-/

namespace Burma2dConfig

/-! ## Go strings and `unicode/utf8` -/

/-- A Go string: its bytes, each a natural number below 256. -/
abbrev GoString := List Nat

/-- The replacement rune `utf8.RuneError` (U+FFFD). -/
def RuneError : Nat := 0xFFFD

/-- The bytes `utf8.AppendRune` writes for the rune `r`; surrogates and values
above U+10FFFF are written as U+FFFD. -/
def encodeRune (r : Nat) : GoString :=
  if r < 0x80 then [r]
  else if r < 0x800 then [0xC0 + r / 64, 0x80 + r % 64]
  else if 0xD800 ≤ r ∧ r < 0xE000 then [0xEF, 0xBF, 0xBD]
  else if r < 0x10000 then [0xE0 + r / 4096, 0x80 + r / 64 % 64, 0x80 + r % 64]
  else if r < 0x110000 then
    [0xF0 + r / 262144, 0x80 + r / 4096 % 64, 0x80 + r / 64 % 64, 0x80 + r % 64]
  else [0xEF, 0xBF, 0xBD]

/-- The test `lo ≤ b ≤ hi` on a continuation byte. -/
def inRange (b lo hi : Nat) : Bool := decide (lo ≤ b) && decide (b ≤ hi)

/-- The function `utf8.DecodeRune`: the first rune of `s` and its width in bytes.
Every malformed or truncated sequence gives `(RuneError, 1)`, the empty string
`(RuneError, 0)`. The accepted range of the second byte depends on the first
byte (the table `acceptRanges`). -/
def decodeRune : GoString → Nat × Nat
  | [] => (RuneError, 0)
  | s0 :: rest =>
    if s0 < 0x80 then (s0, 1)
    else if s0 < 0xC2 then (RuneError, 1)
    else if s0 < 0xE0 then
      match rest with
      | s1 :: _ =>
        if inRange s1 0x80 0xBF then (s0 % 32 * 64 + s1 % 64, 2) else (RuneError, 1)
      | _ => (RuneError, 1)
    else if s0 < 0xF0 then
      match rest with
      | s1 :: s2 :: _ =>
        if inRange s1 (if s0 = 0xE0 then 0xA0 else 0x80) (if s0 = 0xED then 0x9F else 0xBF)
            && inRange s2 0x80 0xBF then
          (s0 % 16 * 4096 + s1 % 64 * 64 + s2 % 64, 3)
        else (RuneError, 1)
      | _ => (RuneError, 1)
    else if s0 < 0xF5 then
      match rest with
      | s1 :: s2 :: s3 :: _ =>
        if inRange s1 (if s0 = 0xF0 then 0x90 else 0x80) (if s0 = 0xF4 then 0x8F else 0xBF)
            && inRange s2 0x80 0xBF && inRange s3 0x80 0xBF then
          (s0 % 8 * 262144 + s1 % 64 * 4096 + s2 % 64 * 64 + s3 % 64, 4)
        else (RuneError, 1)
      | _ => (RuneError, 1)
    else (RuneError, 1)

/-- The loop that coerces a Go string to valid UTF-8: every byte at which
`utf8.DecodeRune` reports an encoding error (`RuneError` of width 1) becomes
the three bytes EF BF BD of U+FFFD, every well-formed sequence stays. One unit
of fuel per iteration. -/
def toValidUTF8Aux : Nat → GoString → GoString
  | 0, _ => []
  | _ + 1, [] => []
  | fuel + 1, b :: rest =>
    let d := decodeRune (b :: rest)
    if d.1 = RuneError ∧ d.2 = 1 then [0xEF, 0xBF, 0xBD] ++ toValidUTF8Aux fuel rest
    else (b :: rest).take d.2 ++ toValidUTF8Aux fuel ((b :: rest).drop d.2)

/-- The Go string `s` coerced to valid UTF-8 (`strings.ToValidUTF8` with U+FFFD
for each invalid byte); valid UTF-8 is left as it is. -/
def toValidUTF8 (s : GoString) : GoString := toValidUTF8Aux s.length s

/-- The UTF-8 bytes of a text: the Go string a string literal of the source
denotes. -/
def goString (s : String) : GoString := s.data.flatMap (fun c => encodeRune c.toNat)

/-! ## `encoding/json` on `[]string` -/

/-- The digit `hex[n]` of the table "0123456789abcdef". -/
def hexDigit (n : Nat) : Nat := if n < 10 then 0x30 + n else 0x57 + n

/-- The table `htmlSafeSet`: the ASCII bytes written without escaping, all of
0x20..0x7F but the quote, the backslash, `<`, `>` and `&`. -/
def htmlSafe (b : Nat) : Bool :=
  decide (0x20 ≤ b) && decide (b < 0x80) && decide (b ≠ 0x22) && decide (b ≠ 0x5C)
    && decide (b ≠ 0x3C) && decide (b ≠ 0x3E) && decide (b ≠ 0x26)

/-- The escape `appendString` writes for an ASCII byte outside `htmlSafeSet`. -/
def escapeByte (b : Nat) : GoString :=
  if b = 0x5C ∨ b = 0x22 then [0x5C, b]
  else if b = 0x08 then [0x5C, 0x62]
  else if b = 0x0C then [0x5C, 0x66]
  else if b = 0x0A then [0x5C, 0x6E]
  else if b = 0x0D then [0x5C, 0x72]
  else if b = 0x09 then [0x5C, 0x74]
  else [0x5C, 0x75, 0x30, 0x30, hexDigit (b / 16), hexDigit (b % 16)]

/-- The loop of `appendString` (with `escapeHTML` set, as `json.Marshal` does):
the escaped content of a JSON string literal. A byte that does not start a
valid UTF-8 sequence is written as the escape of U+FFFD (`json.Marshal`: string
values are "coerced to valid UTF-8, replacing invalid bytes with the Unicode
replacement rune"); U+2028 and U+2029 are escaped. An encoder that writes the
replacement rune itself instead of its escape stores other bytes in the column
and decodes to the same string. One unit of fuel is spent per iteration; every
iteration consumes at least one byte. -/
def appendStringAux : Nat → GoString → GoString
  | 0, _ => []
  | _ + 1, [] => []
  | fuel + 1, b :: rest =>
    if b < 0x80 then
      (if htmlSafe b then [b] else escapeByte b) ++ appendStringAux fuel rest
    else
      let d := decodeRune (b :: rest)
      if d.1 = RuneError ∧ d.2 = 1 then
        [0x5C, 0x75, 0x66, 0x66, 0x66, 0x64] ++ appendStringAux fuel rest
      else if d.1 = 0x2028 ∨ d.1 = 0x2029 then
        [0x5C, 0x75, 0x32, 0x30, 0x32, hexDigit (d.1 % 16)]
          ++ appendStringAux fuel ((b :: rest).drop d.2)
      else (b :: rest).take d.2 ++ appendStringAux fuel ((b :: rest).drop d.2)

/-- The JSON string literal `appendString` writes for `src`. -/
def appendString (src : GoString) : GoString :=
  0x22 :: appendStringAux src.length src ++ [0x22]

/-- The encoder `json.Marshal` on a `[]string`: `null` for the nil slice, else
the literals separated by commas between brackets. It never fails. -/
def jsonMarshalStrings : Option (List GoString) → GoString
  | none => [0x6E, 0x75, 0x6C, 0x6C]
  | some l => 0x5B :: List.intercalate [0x2C] (l.map appendString) ++ [0x5D]

/-- The value of a hexadecimal digit, upper or lower case. -/
def hexVal (c : Nat) : Option Nat :=
  if 0x30 ≤ c ∧ c ≤ 0x39 then some (c - 0x30)
  else if 0x61 ≤ c ∧ c ≤ 0x66 then some (c - 0x61 + 10)
  else if 0x41 ≤ c ∧ c ≤ 0x46 then some (c - 0x41 + 10)
  else none

/-- The function `getu4`: the code unit of a leading `\uXXXX` escape, `none`
(Go: -1) when `s` does not start with one. -/
def getu4 : GoString → Option Nat
  | 0x5C :: 0x75 :: a :: b :: c :: d :: _ =>
    match hexVal a, hexVal b, hexVal c, hexVal d with
    | some x, some y, some z, some w => some (x * 4096 + y * 256 + z * 16 + w)
    | _, _, _, _ => none
  | _ => none

/-- The function `utf16.DecodeRune` on a first surrogate and the result of
`getu4` after it: the code point of a valid pair, else `none` (Go: U+FFFD). -/
def utf16DecodeRune (r1 : Nat) (r2 : Option Nat) : Option Nat :=
  match r2 with
  | some r2 =>
    if 0xD800 ≤ r1 ∧ r1 < 0xDC00 ∧ 0xDC00 ≤ r2 ∧ r2 < 0xE000 then
      some ((r1 - 0xD800) * 1024 + (r2 - 0xDC00) + 0x10000)
    else none
  | none => none

/-- The byte a one-letter escape stands for (scanner state `stateInStringEsc`). -/
def unescape (e : Nat) : Option Nat :=
  if e = 0x22 ∨ e = 0x5C ∨ e = 0x2F then some e
  else if e = 0x62 then some 0x08
  else if e = 0x66 then some 0x0C
  else if e = 0x6E then some 0x0A
  else if e = 0x72 then some 0x0D
  else if e = 0x74 then some 0x09
  else none

/-- Put `out` in front of the text decoded by the rest of the loop. -/
def emit (out : GoString) (r : Option (GoString × GoString)) : Option (GoString × GoString) :=
  r.map (fun p => (out ++ p.1, p.2))

/-- The scan of a string literal after its opening quote (scanner states
`stateInString...`) together with `unquote`: the decoded text and the input left
after the closing quote; `none` is a syntax error. Invalid UTF-8 and unpaired
surrogate escapes are coerced to U+FFFD. One unit of fuel per iteration. -/
def unquoteAux : Nat → GoString → Option (GoString × GoString)
  | 0, _ => none
  | _ + 1, [] => none
  | fuel + 1, c :: rest =>
    if c = 0x22 then some ([], rest)
    else if c = 0x5C then
      match rest with
      | [] => none
      | e :: rest1 =>
        if e = 0x75 then
          match getu4 (c :: rest) with
          | none => none
          | some rr =>
            if 0xD800 ≤ rr ∧ rr < 0xE000 then
              match utf16DecodeRune rr (getu4 (rest.drop 5)) with
              | some dec => emit (encodeRune dec) (unquoteAux fuel (rest.drop 11))
              | none => emit (encodeRune RuneError) (unquoteAux fuel (rest.drop 5))
            else emit (encodeRune rr) (unquoteAux fuel (rest.drop 5))
        else
          match unescape e with
          | some x => emit [x] (unquoteAux fuel rest1)
          | none => none
    else if c < 0x20 then none
    else if c < 0x80 then emit [c] (unquoteAux fuel rest)
    else
      let d := decodeRune (c :: rest)
      emit (encodeRune d.1) (unquoteAux fuel ((c :: rest).drop d.2))

/-- JSON white space: space, tab, carriage return, line feed. -/
def isSpace (c : Nat) : Bool := c = 0x20 || c = 0x09 || c = 0x0D || c = 0x0A

/-- Skip leading white space. -/
def skipSpace (s : GoString) : GoString := s.dropWhile isSpace

/-- One array element that decodes into a Go `string` without error: a string
literal, or `null`, which leaves the element at its zero value "". Any other
element is a syntax error or an `UnmarshalTypeError`. -/
def parseElem : GoString → Option (GoString × GoString)
  | 0x22 :: rest => unquoteAux rest.length rest
  | 0x6E :: 0x75 :: 0x6C :: 0x6C :: rest => some ([], rest)
  | _ => none

/-- The elements of a non-empty array, from the first element to the closing
bracket. One unit of fuel per element. -/
def parseElems : Nat → GoString → Option (List GoString × GoString)
  | 0, _ => none
  | fuel + 1, s =>
    match parseElem s with
    | none => none
    | some (x, rest) =>
      match skipSpace rest with
      | 0x2C :: rest1 => (parseElems fuel (skipSpace rest1)).map (fun p => (x :: p.1, p.2))
      | 0x5D :: rest1 => some ([x], rest1)
      | _ => none

/-- Accept a decoded value only if nothing but white space follows it. -/
def atEnd (rest : GoString) (v : Option (List GoString)) : Option (Option (List GoString)) :=
  if skipSpace rest = [] then some v else none

/-- The decoder `json.Unmarshal(data, &xs)` for `xs []string` initially nil.
The outer `none` stands for a returned error (a `SyntaxError` for malformed
input, an `UnmarshalTypeError` for a JSON value that is not an array of strings
and nulls); what Go leaves in `xs` in that case is not part of the result, the
only caller overwrites it (line 248). On success the value is the nil slice
for `null` and the decoded list for an array. -/
def jsonUnmarshalStrings (data : GoString) : Option (Option (List GoString)) :=
  match skipSpace data with
  | 0x6E :: 0x75 :: 0x6C :: 0x6C :: rest => atEnd rest none
  | 0x5B :: rest =>
    match skipSpace rest with
    | 0x5D :: rest1 => atEnd rest1 (some [])
    | s =>
      match parseElems s.length s with
      | some (l, rest1) => atEnd rest1 (some l)
      | none => none
  | _ => none

/-! ## Data model (`main.go`, lines 17-50) -/

/-- The struct `AppVersion`: app version and update information. -/
structure AppVersion where
  LatestVersion : GoString
  LatestVersionCode : Int
  MinimumVersionCode : Int
  ForceUpdate : Bool
  UpdateTitle : GoString
  UpdateMessage : GoString
  DownloadURL : GoString
  WhatsNew : Option (List GoString)
  ReleaseDate : GoString
  deriving DecidableEq, Repr

/-- The struct `InAppMessage`: an in-app announcement. -/
structure InAppMessage where
  ID : GoString
  «Type» : GoString
  Title : GoString
  Message : GoString
  ImageURL : GoString
  ActionText : GoString
  ActionURL : GoString
  Priority : Int
  StartDate : GoString
  EndDate : GoString
  ShowOnce : Bool
  Dismissible : Bool
  deriving DecidableEq, Repr

/-- The struct `AppConfig`: the complete configuration response. -/
structure AppConfig where
  AppVersion : AppVersion
  InAppMessages : Option (List InAppMessage)
  deriving DecidableEq, Repr

/-- The elements of a Go slice; the nil slice has none. -/
def sliceList {α : Type} : Option (List α) → List α
  | none => []
  | some l => l

/-- The Go builtin `append(xs, x)`; appending to the nil slice allocates. -/
def appendSlice {α : Type} : Option (List α) → α → Option (List α)
  | none, x => some [x]
  | some l, x => some (l ++ [x])

/-! ## The SQLite database (`createTables`, lines 66-97) -/

/-- A row of the table `app_version`. -/
structure VersionRow where
  id : Int
  latest_version : GoString
  latest_version_code : Int
  minimum_version_code : Int
  force_update : Bool
  update_title : GoString
  update_message : GoString
  download_url : GoString
  whats_new : GoString
  release_date : GoString
  deriving DecidableEq, Repr

/-- A row of the table `in_app_messages`; the three columns without `NOT NULL`
may hold NULL (`none`). -/
structure MessageRow where
  id : GoString
  type : GoString
  title : GoString
  message : GoString
  image_url : Option GoString
  action_text : Option GoString
  action_url : Option GoString
  priority : Int
  start_date : GoString
  end_date : GoString
  show_once : Bool
  dismissible : Bool
  deriving DecidableEq, Repr

/-- The contents of the database file: the rows of the two tables in rowid
order. An empty table also stands for a table not yet created, which
`CREATE TABLE IF NOT EXISTS` turns into an empty one. -/
structure DB where
  app_version : List VersionRow
  in_app_messages : List MessageRow
  deriving DecidableEq, Repr

/-- The errors a database call returns: a fault of the storage engine (I/O
error, locked or full database), a violated constraint, or `sql.ErrNoRows`. -/
inductive DBError where
  | storageFault
  | constraintFailed
  | noRows
  deriving DecidableEq, Repr

/-- The global handle `db` with the database behind it. `faults` is the
behaviour of the storage engine from now on: one flag per statement still to
come, `true` when that statement fails with a storage fault; once the list is
used up no statement faults. -/
structure Store where
  db : DB
  faults : List Bool
  deriving DecidableEq, Repr

/-- Take the flag of the next statement. -/
def nextFault (s : Store) : Bool × Store :=
  match s.faults with
  | [] => (false, s)
  | f :: fs => (f, { s with faults := fs })

/-- The call `db.Exec`: run one statement. A statement that fails, by a storage
fault or by a constraint, leaves the database as it was. -/
def dbExec (stmt : DB → Except DBError DB) (s : Store) : Store × Option DBError :=
  let fs := nextFault s
  if fs.1 then (fs.2, some DBError.storageFault)
  else
    match stmt fs.2.db with
    | Except.ok db1 => ({ fs.2 with db := db1 }, none)
    | Except.error e => (fs.2, some e)

/-- The calls `db.Query` / `db.QueryRow` with the scan of the result. -/
def dbQuery {α : Type} (q : DB → Except DBError α) (s : Store) : Store × Except DBError α :=
  let fs := nextFault s
  if fs.1 then (fs.2, Except.error DBError.storageFault) else (fs.2, q fs.2.db)

/-! ### The SQL statements of the program -/

/-- The statement `SELECT COUNT(*) FROM app_version`. -/
def sqlCountVersion (db : DB) : Except DBError Nat := Except.ok db.app_version.length

/-- The statement `INSERT INTO app_version (id, ...) VALUES (...)`: rejected by
`CHECK (id = 1)` or by the primary key. -/
def sqlInsertVersion (row : VersionRow) (db : DB) : Except DBError DB :=
  if row.id ≠ 1 then Except.error DBError.constraintFailed
  else if db.app_version.any (fun r => decide (r.id = row.id)) then
    Except.error DBError.constraintFailed
  else Except.ok { db with app_version := db.app_version ++ [row] }

/-- The statement `SELECT ... FROM app_version WHERE id = 1`, first row. -/
def sqlSelectVersion (db : DB) : Except DBError VersionRow :=
  match db.app_version.find? (fun r => decide (r.id = 1)) with
  | some row => Except.ok row
  | none => Except.error DBError.noRows

/-- The row `UPDATE app_version SET ...` leaves in place of `r`: every column is
overwritten but the id. -/
def updatedVersionRow (version : AppVersion) (whatsNewJSON : GoString) (r : VersionRow) :
    VersionRow :=
  { id := r.id
    latest_version := version.LatestVersion
    latest_version_code := version.LatestVersionCode
    minimum_version_code := version.MinimumVersionCode
    force_update := version.ForceUpdate
    update_title := version.UpdateTitle
    update_message := version.UpdateMessage
    download_url := version.DownloadURL
    whats_new := whatsNewJSON
    release_date := version.ReleaseDate }

/-- The statement `UPDATE app_version SET ... WHERE id = 1`. -/
def sqlUpdateVersion (version : AppVersion) (whatsNewJSON : GoString) (db : DB) :
    Except DBError DB :=
  Except.ok { db with app_version := db.app_version.map (fun r =>
    if r.id = 1 then updatedVersionRow version whatsNewJSON r else r) }

/-- The row the two INSERT statements bind for a message: every column gets a
(non-NULL) Go value. -/
def messageRow (msg : InAppMessage) : MessageRow :=
  { id := msg.ID
    type := msg.«Type»
    title := msg.Title
    message := msg.Message
    image_url := some msg.ImageURL
    action_text := some msg.ActionText
    action_url := some msg.ActionURL
    priority := msg.Priority
    start_date := msg.StartDate
    end_date := msg.EndDate
    show_once := msg.ShowOnce
    dismissible := msg.Dismissible }

/-- The statement `INSERT INTO in_app_messages (...) VALUES (...)`: rejected by
the primary key when the id is taken. -/
def sqlInsertMessage (row : MessageRow) (db : DB) : Except DBError DB :=
  if db.in_app_messages.any (fun r => decide (r.id = row.id)) then
    Except.error DBError.constraintFailed
  else Except.ok { db with in_app_messages := db.in_app_messages ++ [row] }

/-- The rows of `in_app_messages` after `INSERT ... ON CONFLICT(id) DO UPDATE
SET ...`: the row with the id is overwritten where it stands, else the row is
added. -/
def upsertRows (rows : List MessageRow) (row : MessageRow) : List MessageRow :=
  if rows.any (fun r => decide (r.id = row.id)) then
    rows.map (fun r => if r.id = row.id then row else r)
  else rows ++ [row]

/-- The statement `INSERT ... ON CONFLICT(id) DO UPDATE SET ...`; it violates no
constraint. -/
def sqlUpsertMessage (row : MessageRow) (db : DB) : Except DBError DB :=
  Except.ok { db with in_app_messages := upsertRows db.in_app_messages row }

/-- The statement `DELETE FROM in_app_messages WHERE id = ?`. -/
def sqlDeleteMessage (id : GoString) (db : DB) : Except DBError DB :=
  Except.ok { db with in_app_messages := db.in_app_messages.filter (fun r => decide (r.id ≠ id)) }

/-- The statement `DELETE FROM in_app_messages`. -/
def sqlDeleteAllMessages (db : DB) : Except DBError DB :=
  Except.ok { db with in_app_messages := [] }

/-- The order of `ORDER BY priority DESC`: `a` may stand before `b`. -/
def priorityDesc (a b : MessageRow) : Prop := b.priority ≤ a.priority

instance : DecidableRel priorityDesc :=
  fun a b => inferInstanceAs (Decidable (b.priority ≤ a.priority))

instance : IsTotal MessageRow priorityDesc := ⟨fun a b => Int.le_total b.priority a.priority⟩

instance : IsTrans MessageRow priorityDesc := ⟨fun _ _ _ hab hbc => Int.le_trans hbc hab⟩

/-- The statement `SELECT ... FROM in_app_messages ORDER BY priority DESC`. SQL
leaves the order of rows of equal priority open; here they keep their table
order (a stable sort). -/
def sqlSelectMessages (db : DB) : Except DBError (List MessageRow) :=
  Except.ok (db.in_app_messages.insertionSort priorityDesc)

/-- The statement `CREATE TABLE IF NOT EXISTS ...` for the two tables. -/
def sqlCreateTables (db : DB) : Except DBError DB := Except.ok db

/-! ## The Go functions of `main.go` -/

/-- The six lines of the slice `whatsNew` of `insertDefaultData` (lines
122-129), as texts. -/
def defaultWhatsNewTexts : List String :=
  [ "✨ Brand new App Config & In-App Message system",
    "💬 Real-time chat with auto-reconnect",
    "🎁 Interactive gift system with native ads",
    "📰 Paper/News section with beautiful UI",
    "📺 Interstitial ads on all button clicks",
    "🐛 Performance improvements and bug fixes" ]

/-- The slice `whatsNew` of `insertDefaultData`. -/
def defaultWhatsNew : Option (List GoString) := some (defaultWhatsNewTexts.map goString)

/-- The row of the default app version (lines 132-148); `today` is
`time.Now().Format("2006-01-02")`. -/
def defaultVersionRow (today : GoString) : VersionRow :=
  { id := 1
    latest_version := goString "1.5.0"
    latest_version_code := 150
    minimum_version_code := 1
    force_update := false
    update_title := goString "🎉 New Update Available!"
    update_message := goString
      "We've added exciting new features and improvements to enhance your experience!"
    download_url := goString "https://github.com/Lainlain/burma2daio/releases/latest"
    whats_new := jsonMarshalStrings defaultWhatsNew
    release_date := today }

/-- The first default message (lines 155-168). -/
def welcomeMessage : InAppMessage :=
  { ID := goString "welcome_2025"
    «Type» := goString "info"
    Title := goString "🎊 Welcome to Burma 2D 2025!"
    Message := goString "Thank you for using our app! We're committed to providing you with the best lottery experience. Check out our new features and enjoy real-time updates!"
    ImageURL := goString ""
    ActionText := goString ""
    ActionURL := goString ""
    Priority := 5
    StartDate := goString "2025-11-01"
    EndDate := goString "2025-12-31"
    ShowOnce := true
    Dismissible := true }

/-- The second default message (lines 169-182). -/
def promoMessage : InAppMessage :=
  { ID := goString "promo_nov_2025"
    «Type» := goString "promo"
    Title := goString "🎁 Special November Offer!"
    Message := goString "Get access to premium features this month! Exclusive analysis, predictions, and more. Don't miss out on this limited-time offer!"
    ImageURL := goString ""
    ActionText := goString "Learn More"
    ActionURL := goString "http://localhost:4545"
    Priority := 10
    StartDate := goString "2025-11-01"
    EndDate := goString "2025-11-30"
    ShowOnce := false
    Dismissible := true }

/-- The third default message (lines 183-196). -/
def maintenanceMessage : InAppMessage :=
  { ID := goString "maintenance_alert"
    «Type» := goString "warning"
    Title := goString "⚠️ Scheduled Maintenance"
    Message := goString "We'll be performing system maintenance on November 10th from 2:00 AM to 4:00 AM. The app may be temporarily unavailable during this time."
    ImageURL := goString ""
    ActionText := goString ""
    ActionURL := goString ""
    Priority := 8
    StartDate := goString "2025-11-04"
    EndDate := goString "2025-11-10"
    ShowOnce := false
    Dismissible := true }

/-- The slice `messages` of `insertDefaultData` (lines 154-197). -/
def defaultMessages : List InAppMessage := [welcomeMessage, promoMessage, maintenanceMessage]

/-- The loop of lines 199-212: a plain INSERT per default message, stopping at
the first error. -/
def insertDefaultMessages : Store → List InAppMessage → Store × Option DBError
  | s, [] => (s, none)
  | s, msg :: rest =>
    match dbExec (sqlInsertMessage (messageRow msg)) s with
    | (s1, some err) => (s1, some err)
    | (s1, none) => insertDefaultMessages s1 rest

/-- The function `insertDefaultData` (lines 113-218): inserts the default
configuration if the table `app_version` is empty. -/
def insertDefaultData (s : Store) (today : GoString) : Store × Option DBError :=
  match dbQuery sqlCountVersion s with
  | (s1, Except.error err) => (s1, some err)
  | (s1, Except.ok count) =>
    if count = 0 then
      match dbExec (sqlInsertVersion (defaultVersionRow today)) s1 with
      | (s2, some err) => (s2, some err)
      | (s2, none) => insertDefaultMessages s2 defaultMessages
    else (s1, none)

/-- The function `InitDB` (lines 53-110) on the database file at `dbPath`:
connect (`db.Ping`), create the tables, seed the defaults. -/
def InitDB (s : Store) (today : GoString) : Store × Option DBError :=
  match dbExec Except.ok s with
  | (s1, some err) => (s1, some err)
  | (s1, none) =>
    match dbExec sqlCreateTables s1 with
    | (s2, some err) => (s2, some err)
    | (s2, none) => insertDefaultData s2 today

/-- The `AppVersion` that `GetAppVersion` builds from a scanned row (lines
231-251): the columns as they are, and the decoded `whats_new`, replaced by an
empty slice when `json.Unmarshal` returns an error. -/
def scanVersion (row : VersionRow) : AppVersion :=
  { LatestVersion := row.latest_version
    LatestVersionCode := row.latest_version_code
    MinimumVersionCode := row.minimum_version_code
    ForceUpdate := row.force_update
    UpdateTitle := row.update_title
    UpdateMessage := row.update_message
    DownloadURL := row.download_url
    WhatsNew :=
      match jsonUnmarshalStrings row.whats_new with
      | some whatsNew => whatsNew
      | none => some []
    ReleaseDate := row.release_date }

/-- The function `GetAppVersion` (lines 221-252). -/
def GetAppVersion (s : Store) : Store × Except DBError AppVersion :=
  match dbQuery sqlSelectVersion s with
  | (s1, Except.error err) => (s1, Except.error err)
  | (s1, Except.ok row) => (s1, Except.ok (scanVersion row))

/-- The function `UpdateAppVersion` (lines 255-287). -/
def UpdateAppVersion (s : Store) (version : AppVersion) : Store × Option DBError :=
  dbExec (sqlUpdateVersion version (jsonMarshalStrings version.WhatsNew)) s

/-- The `InAppMessage` scanned from a row (lines 304-319): a NULL in a nullable
column reads as the empty string (`sql.NullString.String`). -/
def scanMessage (row : MessageRow) : InAppMessage :=
  { ID := row.id
    «Type» := row.type
    Title := row.title
    Message := row.message
    ImageURL := row.image_url.getD []
    ActionText := row.action_text.getD []
    ActionURL := row.action_url.getD []
    Priority := row.priority
    StartDate := row.start_date
    EndDate := row.end_date
    ShowOnce := row.show_once
    Dismissible := row.dismissible }

/-- The function `GetInAppMessages` (lines 290-325): the slice starts nil and
gets one `append` per row. -/
def GetInAppMessages (s : Store) : Store × Except DBError (Option (List InAppMessage)) :=
  match dbQuery sqlSelectMessages s with
  | (s1, Except.error err) => (s1, Except.error err)
  | (s1, Except.ok rows) =>
    (s1, Except.ok (rows.foldl (fun messages row => appendSlice messages (scanMessage row)) none))

/-- The function `UpsertInAppMessage` (lines 328-354). -/
def UpsertInAppMessage (s : Store) (msg : InAppMessage) : Store × Option DBError :=
  dbExec (sqlUpsertMessage (messageRow msg)) s

/-- The function `DeleteInAppMessage` (lines 357-360). -/
def DeleteInAppMessage (s : Store) (id : GoString) : Store × Option DBError :=
  dbExec (sqlDeleteMessage id) s

/-- The response of `GetAppConfigHandler`: 200 with the configuration, or 500
with "Failed to get version: ..." or "Failed to get messages: ...". -/
inductive GetConfigResponse where
  | ok (config : AppConfig)
  | failedToGetVersion (err : DBError)
  | failedToGetMessages (err : DBError)
  deriving DecidableEq, Repr

/-- The function `GetAppConfigHandler` (lines 363-383). -/
def GetAppConfigHandler (s : Store) : Store × GetConfigResponse :=
  match GetAppVersion s with
  | (s1, Except.error err) => (s1, GetConfigResponse.failedToGetVersion err)
  | (s1, Except.ok version) =>
    match GetInAppMessages s1 with
    | (s2, Except.error err) => (s2, GetConfigResponse.failedToGetMessages err)
    | (s2, Except.ok messages) =>
      (s2, GetConfigResponse.ok { AppVersion := version, InAppMessages := messages })

/-- The response of `UpdateAppConfigHandler`: 200 echoing the configuration,
400 for a body that does not bind, or 500 naming the step that failed. -/
inductive UpdateConfigResponse where
  | ok (config : AppConfig)
  | badRequest
  | failedToUpdateVersion (err : DBError)
  | failedToClearMessages (err : DBError)
  | failedToInsertMessage (err : DBError)
  deriving DecidableEq, Repr

/-- The loop of lines 406-411: one `UpsertInAppMessage` per message, stopping at
the first error. -/
def insertNewMessages : Store → List InAppMessage → Store × Option DBError
  | s, [] => (s, none)
  | s, msg :: rest =>
    match UpsertInAppMessage s msg with
    | (s1, some err) => (s1, some err)
    | (s1, none) => insertNewMessages s1 rest

/-- Lines 399-411 of `UpdateAppConfigHandler`, the replacement of the message
collection: delete all existing messages, insert the new ones. The result is
the error response sent when a statement fails, `none` when all succeeded. -/
def replaceAllMessages (s : Store) (newMessages : Option (List InAppMessage)) :
    Store × Option UpdateConfigResponse :=
  match dbExec sqlDeleteAllMessages s with
  | (s1, some err) => (s1, some (UpdateConfigResponse.failedToClearMessages err))
  | (s1, none) =>
    match insertNewMessages s1 (sliceList newMessages) with
    | (s2, some err) => (s2, some (UpdateConfigResponse.failedToInsertMessage err))
    | (s2, none) => (s2, none)

/-- The function `UpdateAppConfigHandler` (lines 386-418); `body` is the result
of `c.ShouldBindJSON(&newConfig)`, `none` when the body does not bind. -/
def UpdateAppConfigHandler (s : Store) (body : Option AppConfig) :
    Store × UpdateConfigResponse :=
  match body with
  | none => (s, UpdateConfigResponse.badRequest)
  | some newConfig =>
    match UpdateAppVersion s newConfig.AppVersion with
    | (s1, some err) => (s1, UpdateConfigResponse.failedToUpdateVersion err)
    | (s1, none) =>
      match replaceAllMessages s1 newConfig.InAppMessages with
      | (s2, some response) => (s2, response)
      | (s2, none) => (s2, UpdateConfigResponse.ok newConfig)

/-- The database file before the first start: no rows. -/
def emptyDB : DB := { app_version := [], in_app_messages := [] }

/-- The database after the first start on day `today`: the default version row
and the three default messages. -/
def seededDB (today : GoString) : DB :=
  { app_version := [defaultVersionRow today]
    in_app_messages := defaultMessages.map messageRow }

/-- The calls that reach the store: initialization, the store functions and
the handlers. -/
inductive StoreOp where
  | initDB (today : GoString)
  | getAppVersion
  | getInAppMessages
  | getAppConfig
  | updateAppVersion (version : AppVersion)
  | upsertInAppMessage (msg : InAppMessage)
  | deleteInAppMessage (id : GoString)
  | updateAppConfig (body : Option AppConfig)

/-- The store after a call, whatever the call returned. -/
def runOp : StoreOp → Store → Store
  | StoreOp.initDB today, s => (InitDB s today).1
  | StoreOp.getAppVersion, s => (GetAppVersion s).1
  | StoreOp.getInAppMessages, s => (GetInAppMessages s).1
  | StoreOp.getAppConfig, s => (GetAppConfigHandler s).1
  | StoreOp.updateAppVersion version, s => (UpdateAppVersion s version).1
  | StoreOp.upsertInAppMessage msg, s => (UpsertInAppMessage s msg).1
  | StoreOp.deleteInAppMessage id, s => (DeleteInAppMessage s id).1
  | StoreOp.updateAppConfig body, s => (UpdateAppConfigHandler s body).1

/-- The store states the program reaches: a successful `InitDB` (`main` exits
when it fails) on a database file whose table `app_version` is empty or holds
the id = 1 row, the only contents its primary key and `CHECK (id = 1)` allow,
under any behaviour of the storage engine, followed by any sequence of calls. -/
inductive Reachable : Store → Prop where
  | init (s0 : Store) (today : GoString) :
      (s0.db.app_version.map (fun r => r.id) = [] ∨
        s0.db.app_version.map (fun r => r.id) = [1]) →
      (InitDB s0 today).2 = none →
      Reachable (InitDB s0 today).1
  | step (op : StoreOp) (s : Store) : Reachable s → Reachable (runOp op s)

/-! ## Sample values -/

/-- A message with the given identifier, title and priority, the other fields
fixed. -/
def sampleMessage (id title : String) (priority : Int) : InAppMessage :=
  { ID := goString id
    «Type» := goString "info"
    Title := goString title
    Message := goString "text"
    ImageURL := []
    ActionText := []
    ActionURL := []
    Priority := priority
    StartDate := goString "2025-11-01"
    EndDate := goString "2025-12-31"
    ShowOnce := false
    Dismissible := true }

/-- A store holding the three sample messages `a`, `b`, `c` of priorities 5, 10
and 8, with a storage engine that never faults. -/
def sampleStore : Store :=
  { db := { app_version := []
            in_app_messages := [ messageRow (sampleMessage "a" "A" 5),
                                 messageRow (sampleMessage "b" "B" 10),
                                 messageRow (sampleMessage "c" "C" 8) ] }
    faults := [] }

/-- A store holding the sample message `a`, whose storage engine runs two
statements and faults on the third. -/
def faultyStore : Store :=
  { db := { app_version := [], in_app_messages := [messageRow (sampleMessage "a" "A" 5)] }
    faults := [false, false, true] }

/-- An app version with the given what's-new list, the other fields fixed. -/
def sampleVersion (whatsNew : Option (List GoString)) : AppVersion :=
  { LatestVersion := goString "2.0.0"
    LatestVersionCode := 200
    MinimumVersionCode := 150
    ForceUpdate := true
    UpdateTitle := goString "Update"
    UpdateMessage := goString "Please update"
    DownloadURL := goString "https://example.org/app.apk"
    WhatsNew := whatsNew
    ReleaseDate := goString "2025-12-01" }

/-- A store whose version row holds the text `whatsNew` in its `whats_new`
column, with a storage engine that never faults. -/
def versionStore (whatsNew : GoString) : Store :=
  { db := { app_version := [{ defaultVersionRow (goString "2025-11-01") with
                              whats_new := whatsNew }]
            in_app_messages := [] }
    faults := [] }

/-! ## Lemmas on the storage layer -/

theorem nextFault_of_nil {s : Store} (h : s.faults = []) : nextFault s = (false, s) := by
  unfold nextFault
  rw [h]

theorem dbExec_of_nil {stmt : DB → Except DBError DB} {s : Store} {db1 : DB}
    (hf : s.faults = []) (h : stmt s.db = Except.ok db1) :
    dbExec stmt s = ({ s with db := db1 }, none) := by
  unfold dbExec
  simp [nextFault_of_nil hf, h]

theorem dbQuery_of_nil {α : Type} {q : DB → Except DBError α} {s : Store}
    (hf : s.faults = []) : dbQuery q s = (s, q s.db) := by
  unfold dbQuery
  simp [nextFault_of_nil hf]

theorem scanMessage_messageRow (msg : InAppMessage) : scanMessage (messageRow msg) = msg := by
  cases msg
  rfl

theorem sliceList_foldl_appendSlice {α β : Type} (f : α → β) (rows : List α)
    (init : Option (List β)) :
    sliceList (rows.foldl (fun messages row => appendSlice messages (f row)) init)
      = sliceList init ++ rows.map f := by
  induction rows generalizing init with
  | nil => simp
  | cons r rest ih =>
    rw [List.foldl_cons, ih]
    cases init <;> simp [appendSlice, sliceList]

theorem getInAppMessages_of_nil {s : Store} (hf : s.faults = []) :
    GetInAppMessages s = (s, Except.ok ((s.db.in_app_messages.insertionSort priorityDesc).foldl
      (fun messages row => appendSlice messages (scanMessage row)) none)) := by
  unfold GetInAppMessages
  rw [dbQuery_of_nil hf]
  rfl

/-! ## C1: the message list is complete and ordered by descending priority -/

/-- C1. When the storage engine does not fault, `GetInAppMessages` succeeds on
every store state; the returned list is a permutation of the stored rows as
scanned (every stored message exactly once), and every earlier record has a
priority at least that of every later one, adjacent pairs in particular. -/
theorem getInAppMessages_complete_sorted (s : Store) (hf : s.faults = []) :
    ∃ messages, (GetInAppMessages s).2 = Except.ok messages ∧
      (sliceList messages).Perm (s.db.in_app_messages.map scanMessage) ∧
      (sliceList messages).Pairwise (fun a b => b.Priority ≤ a.Priority) ∧
      (sliceList messages).Chain' (fun a b => b.Priority ≤ a.Priority) := by
  refine ⟨_, by rw [getInAppMessages_of_nil hf], ?_, ?_, ?_⟩
  · rw [sliceList_foldl_appendSlice]
    simpa [sliceList] using (List.perm_insertionSort priorityDesc s.db.in_app_messages).map scanMessage
  · rw [sliceList_foldl_appendSlice]
    have h := List.sorted_insertionSort priorityDesc s.db.in_app_messages
    simpa [sliceList, List.pairwise_map] using h
  · rw [sliceList_foldl_appendSlice]
    have h := List.sorted_insertionSort priorityDesc s.db.in_app_messages
    have h2 : ((s.db.in_app_messages.insertionSort priorityDesc).map scanMessage).Pairwise
        (fun a b => b.Priority ≤ a.Priority) := by
      simpa [List.pairwise_map] using h
    simpa [sliceList] using h2.chain'

/-- Witness of C1: stored priorities 5, 10, 8 come back as 10, 8, 5. -/
theorem getInAppMessages_complete_sorted_witness :
    sampleStore.faults = [] ∧
    (∃ messages, (GetInAppMessages sampleStore).2 = Except.ok messages ∧
      (sliceList messages).Perm (sampleStore.db.in_app_messages.map scanMessage) ∧
      (sliceList messages).Pairwise (fun a b => b.Priority ≤ a.Priority) ∧
      (sliceList messages).Chain' (fun a b => b.Priority ≤ a.Priority)) ∧
    (GetInAppMessages sampleStore).2 = Except.ok (some
      [sampleMessage "b" "B" 10, sampleMessage "c" "C" 8, sampleMessage "a" "A" 5]) :=
  ⟨rfl, getInAppMessages_complete_sorted sampleStore rfl, rfl⟩

/-! ## Lemmas on the upsert statement -/

theorem any_id_iff (rows : List MessageRow) (id : GoString) :
    rows.any (fun r => decide (r.id = id)) = true ↔ id ∈ rows.map (fun r => r.id) := by
  rw [List.any_eq_true, List.mem_map]
  constructor
  · rintro ⟨r, hr, he⟩
    exact ⟨r, hr, of_decide_eq_true he⟩
  · rintro ⟨r, hr, he⟩
    exact ⟨r, hr, decide_eq_true he⟩

theorem map_id_upsertRows (rows : List MessageRow) (row : MessageRow) :
    (upsertRows rows row).map (fun r => r.id)
      = if row.id ∈ rows.map (fun r => r.id) then rows.map (fun r => r.id)
        else rows.map (fun r => r.id) ++ [row.id] := by
  unfold upsertRows
  by_cases h : rows.any (fun r => decide (r.id = row.id)) = true
  · rw [if_pos h, if_pos ((any_id_iff rows row.id).1 h), List.map_map]
    apply List.map_congr_left
    intro r _
    by_cases hr : r.id = row.id <;> simp [hr]
  · rw [if_neg h, if_neg (fun hm => h ((any_id_iff rows row.id).2 hm)), List.map_append]
    rfl

theorem nodup_upsertRows {rows : List MessageRow} (row : MessageRow)
    (h : (rows.map (fun r => r.id)).Nodup) : ((upsertRows rows row).map (fun r => r.id)).Nodup := by
  rw [map_id_upsertRows]
  split
  · exact h
  · rename_i hn
    exact List.Nodup.append h (List.nodup_singleton _) (by simpa using hn)

theorem length_upsertRows_le (rows : List MessageRow) (row : MessageRow) :
    (upsertRows rows row).length ≤ rows.length + 1 ∧ rows.length ≤ (upsertRows rows row).length := by
  unfold upsertRows
  split <;> simp

theorem mem_upsertRows {rows : List MessageRow} {row r : MessageRow} (h : r ∈ upsertRows rows row) :
    r = row ∨ (r ∈ rows ∧ r.id ≠ row.id) := by
  unfold upsertRows at h
  split at h
  · rw [List.mem_map] at h
    obtain ⟨r0, hr0, he⟩ := h
    by_cases hid : r0.id = row.id
    · left; simpa [hid] using he.symm
    · right
      rw [if_neg hid] at he
      subst he
      exact ⟨hr0, hid⟩
  · rename_i hn
    rw [List.mem_append, List.mem_singleton] at h
    rcases h with h | h
    · right
      refine ⟨h, fun hid => hn ?_⟩
      exact (any_id_iff rows row.id).2 (List.mem_map.2 ⟨r, h, hid⟩)
    · left; exact h

theorem filter_ne_map_replace (rows : List MessageRow) (row : MessageRow) :
    (rows.map (fun r => if r.id = row.id then row else r)).filter (fun r => decide (r.id ≠ row.id))
      = rows.filter (fun r => decide (r.id ≠ row.id)) := by
  induction rows with
  | nil => rfl
  | cons r rest ih =>
    by_cases hr : r.id = row.id
    · simp only [List.map_cons, if_pos hr, List.filter_cons]
      simpa [hr] using ih
    · simp only [List.map_cons, if_neg hr, List.filter_cons]
      simpa [hr] using ih

theorem filter_ne_upsertRows (rows : List MessageRow) (row : MessageRow) :
    (upsertRows rows row).filter (fun r => decide (r.id ≠ row.id))
      = rows.filter (fun r => decide (r.id ≠ row.id)) := by
  unfold upsertRows
  split
  · exact filter_ne_map_replace rows row
  · simp [List.filter_append]

theorem filter_eq_of_not_mem (rows : List MessageRow) (id : GoString)
    (h : id ∉ rows.map (fun r => r.id)) :
    rows.filter (fun r => decide (r.id = id)) = [] := by
  rw [List.filter_eq_nil_iff]
  intro r hr hd
  exact h (List.mem_map.2 ⟨r, hr, of_decide_eq_true hd⟩)

theorem filter_eq_map_replace (rows : List MessageRow) (row : MessageRow)
    (hmem : row.id ∈ rows.map (fun r => r.id)) (hnd : (rows.map (fun r => r.id)).Nodup) :
    (rows.map (fun r => if r.id = row.id then row else r)).filter (fun r => decide (r.id = row.id))
      = [row] := by
  induction rows with
  | nil => simp at hmem
  | cons r rest ih =>
    rw [List.map_cons, List.nodup_cons] at hnd
    by_cases hr : r.id = row.id
    · have hnot : row.id ∉ rest.map (fun r => r.id) := hr ▸ hnd.1
      have hrest : rest.map (fun r => if r.id = row.id then row else r) = rest := by
        conv_rhs => rw [← List.map_id rest]
        apply List.map_congr_left
        intro x hx
        have : x.id ≠ row.id := fun he => hnot (List.mem_map.2 ⟨x, hx, he⟩)
        simp [this]
      simp only [List.map_cons, if_pos hr, List.filter_cons, decide_True, if_true, hrest]
      rw [filter_eq_of_not_mem rest row.id hnot]
    · have hmem2 : row.id ∈ rest.map (fun r => r.id) := by
        rw [List.map_cons, List.mem_cons] at hmem
        rcases hmem with h | h
        · exact absurd h.symm hr
        · exact h
      simp only [List.map_cons, if_neg hr, List.filter_cons, decide_eq_true_eq, hr, if_false]
      exact ih hmem2 hnd.2

theorem filter_eq_upsertRows (rows : List MessageRow) (row : MessageRow)
    (hnd : (rows.map (fun r => r.id)).Nodup) :
    (upsertRows rows row).filter (fun r => decide (r.id = row.id)) = [row] := by
  unfold upsertRows
  split
  · rename_i h
    exact filter_eq_map_replace rows row ((any_id_iff rows row.id).1 h) hnd
  · rename_i h
    have hnot : row.id ∉ rows.map (fun r => r.id) := fun hm => h ((any_id_iff rows row.id).2 hm)
    rw [List.filter_append, filter_eq_of_not_mem rows row.id hnot]
    simp

theorem length_upsertRows_of_mem (rows : List MessageRow) (row : MessageRow)
    (h : row.id ∈ rows.map (fun r => r.id)) : (upsertRows rows row).length = rows.length := by
  unfold upsertRows
  rw [if_pos ((any_id_iff rows row.id).2 h), List.length_map]

theorem id_mem_upsertRows (rows : List MessageRow) (row : MessageRow) :
    row.id ∈ (upsertRows rows row).map (fun r => r.id) := by
  rw [map_id_upsertRows]
  split
  · assumption
  · simp

theorem upsertInAppMessage_of_nil {s : Store} (hf : s.faults = []) (msg : InAppMessage) :
    UpsertInAppMessage s msg
      = ({ s with db := { s.db with
            in_app_messages := upsertRows s.db.in_app_messages (messageRow msg) } }, none) := by
  unfold UpsertInAppMessage
  exact dbExec_of_nil hf rfl

/-! ## C4: upsert is insert-or-overwrite keyed by identifier -/

/-- C4. On a store whose message identifiers are unique (the primary key) and
whose storage engine does not fault, upserting `m1` and then `m2` with the same
`ID` succeeds twice and leaves exactly one record under that identifier, equal
to `m2` in every field (its title included); the records under other
identifiers are unchanged, the number of records grows by at most one, and the
version table is untouched. -/
theorem upsertInAppMessage_twice_same_id (s : Store) (m1 m2 : InAppMessage)
    (hf : s.faults = []) (hpk : (s.db.in_app_messages.map (fun r => r.id)).Nodup)
    (hid : m1.ID = m2.ID) :
    (UpsertInAppMessage s m1).2 = none ∧
    (UpsertInAppMessage (UpsertInAppMessage s m1).1 m2).2 = none ∧
    ((UpsertInAppMessage (UpsertInAppMessage s m1).1 m2).1.db.in_app_messages.filter
        (fun r => decide (r.id = m2.ID))).map scanMessage = [m2] ∧
    (UpsertInAppMessage (UpsertInAppMessage s m1).1 m2).1.db.in_app_messages.filter
        (fun r => decide (r.id ≠ m2.ID))
      = s.db.in_app_messages.filter (fun r => decide (r.id ≠ m2.ID)) ∧
    (UpsertInAppMessage (UpsertInAppMessage s m1).1 m2).1.db.in_app_messages.length
      ≤ s.db.in_app_messages.length + 1 ∧
    (UpsertInAppMessage (UpsertInAppMessage s m1).1 m2).1.db.app_version = s.db.app_version := by
  have h1 := upsertInAppMessage_of_nil hf m1
  have hf1 : (UpsertInAppMessage s m1).1.faults = [] := by rw [h1]; exact hf
  have h2 := upsertInAppMessage_of_nil hf1 m2
  have hrow : (messageRow m1).id = (messageRow m2).id := hid
  have hnd1 := nodup_upsertRows (messageRow m1) hpk
  refine ⟨by rw [h1], by rw [h2], ?_, ?_, ?_, ?_⟩
  · rw [h2, h1]
    show (List.filter (fun r => decide (r.id = (messageRow m2).id))
      (upsertRows (upsertRows s.db.in_app_messages (messageRow m1)) (messageRow m2))).map
        scanMessage = [m2]
    rw [filter_eq_upsertRows _ _ hnd1, List.map_singleton, scanMessage_messageRow]
  · rw [h2, h1]
    show List.filter (fun r => decide (r.id ≠ (messageRow m2).id))
      (upsertRows (upsertRows s.db.in_app_messages (messageRow m1)) (messageRow m2)) = _
    rw [filter_ne_upsertRows]
    have := filter_ne_upsertRows s.db.in_app_messages (messageRow m1)
    rw [hrow] at this
    exact this
  · rw [h2, h1]
    show (upsertRows (upsertRows s.db.in_app_messages (messageRow m1)) (messageRow m2)).length ≤ _
    rw [length_upsertRows_of_mem _ _ (hrow ▸ id_mem_upsertRows s.db.in_app_messages (messageRow m1))]
    exact (length_upsertRows_le _ _).1
  · rw [h2, h1]

/-- Witness of C4: the sample message `b` upserted under two titles. -/
theorem upsertInAppMessage_twice_same_id_witness :
    sampleStore.faults = [] ∧
    (sampleStore.db.in_app_messages.map (fun r => r.id)).Nodup ∧
    (sampleMessage "b" "old title" 1).ID = (sampleMessage "b" "new title" 2).ID ∧
    ((UpsertInAppMessage (UpsertInAppMessage sampleStore (sampleMessage "b" "old title" 1)).1
        (sampleMessage "b" "new title" 2)).1.db.in_app_messages.filter
        (fun r => decide (r.id = (sampleMessage "b" "new title" 2).ID))).map scanMessage
      = [sampleMessage "b" "new title" 2] :=
  ⟨rfl, by decide, rfl,
    (upsertInAppMessage_twice_same_id sampleStore (sampleMessage "b" "old title" 1)
      (sampleMessage "b" "new title" 2) rfl (by decide) rfl).2.2.1⟩


/-! ## Lemmas on the insert loop and the replacement of the collection -/

theorem insertNewMessages_of_nil (msgs : List InAppMessage) (s : Store) (hf : s.faults = []) :
    insertNewMessages s msgs
      = ({ db := { app_version := s.db.app_version
                   in_app_messages := msgs.foldl (fun rows m => upsertRows rows (messageRow m))
                     s.db.in_app_messages }
           faults := s.faults }, none) := by
  induction msgs generalizing s with
  | nil => rfl
  | cons m rest ih =>
    unfold insertNewMessages
    rw [upsertInAppMessage_of_nil hf m]
    exact ih _ hf

theorem replaceAllMessages_of_nil (s : Store) (hf : s.faults = [])
    (newMessages : Option (List InAppMessage)) :
    replaceAllMessages s newMessages
      = ({ db := { app_version := s.db.app_version
                   in_app_messages := (sliceList newMessages).foldl
                     (fun rows m => upsertRows rows (messageRow m)) [] }
           faults := s.faults }, none) := by
  unfold replaceAllMessages
  rw [dbExec_of_nil hf (rfl : sqlDeleteAllMessages s.db = _)]
  simp only
  rw [insertNewMessages_of_nil (sliceList newMessages)
    { db := { app_version := s.db.app_version, in_app_messages := [] }, faults := s.faults } hf]

theorem foldl_upsertRows_of_nodup (msgs : List InAppMessage) (rows : List MessageRow)
    (hnd : (msgs.map (fun m => m.ID)).Nodup)
    (hnew : ∀ m ∈ msgs, m.ID ∉ rows.map (fun r => r.id)) :
    msgs.foldl (fun rows m => upsertRows rows (messageRow m)) rows
      = rows ++ msgs.map messageRow := by
  induction msgs generalizing rows with
  | nil => simp
  | cons m rest ih =>
    rw [List.map_cons, List.nodup_cons] at hnd
    have hm : (messageRow m).id ∉ rows.map (fun r => r.id) := hnew m (List.mem_cons_self _ _)
    have hup : upsertRows rows (messageRow m) = rows ++ [messageRow m] := by
      unfold upsertRows
      rw [if_neg (fun h => hm ((any_id_iff rows _).1 h))]
    rw [List.foldl_cons, hup, ih _ hnd.2]
    · simp
    · intro x hx
      rw [List.map_append, List.mem_append]
      rintro (h | h)
      · exact hnew x (List.mem_cons_of_mem _ hx) h
      · simp only [List.map_cons, List.map_nil, List.mem_singleton] at h
        exact hnd.1 (List.mem_map.2 ⟨x, hx, h⟩)

theorem nodup_foldl_upsertRows (msgs : List InAppMessage) (rows : List MessageRow)
    (h : (rows.map (fun r => r.id)).Nodup) :
    ((msgs.foldl (fun rows m => upsertRows rows (messageRow m)) rows).map (fun r => r.id)).Nodup := by
  induction msgs generalizing rows with
  | nil => exact h
  | cons m rest ih => exact ih _ (nodup_upsertRows _ h)

theorem mem_id_foldl_upsertRows (msgs : List InAppMessage) (rows : List MessageRow) (id : GoString) :
    id ∈ (msgs.foldl (fun rows m => upsertRows rows (messageRow m)) rows).map (fun r => r.id)
      ↔ id ∈ rows.map (fun r => r.id) ∨ id ∈ msgs.map (fun m => m.ID) := by
  induction msgs generalizing rows with
  | nil => simp
  | cons m rest ih =>
    rw [List.foldl_cons, ih, map_id_upsertRows]
    have hid : (messageRow m).id = m.ID := rfl
    split
    · rename_i hmem
      rw [List.map_cons, List.mem_cons]
      constructor
      · rintro (h | h)
        · exact Or.inl h
        · exact Or.inr (Or.inr h)
      · rintro (h | h | h)
        · exact Or.inl h
        · exact Or.inl (h ▸ hid ▸ hmem)
        · exact Or.inr h
    · rw [List.mem_append, List.mem_singleton, List.map_cons, List.mem_cons, hid]
      tauto

theorem last_wins_foldl_upsertRows (msgs : List InAppMessage) :
    ∀ r ∈ msgs.foldl (fun rows m => upsertRows rows (messageRow m)) [],
      ∃ m, msgs.reverse.find? (fun m => decide (m.ID = r.id)) = some m ∧ r = messageRow m := by
  induction msgs using List.reverseRecOn with
  | nil => intro r hr; simp at hr
  | append_singleton rest m ih =>
    intro r hr
    rw [List.foldl_append, List.foldl_cons, List.foldl_nil] at hr
    rw [List.reverse_append, List.reverse_singleton, List.singleton_append]
    rcases mem_upsertRows hr with h | ⟨h, hne⟩
    · refine ⟨m, ?_, h⟩
      rw [List.find?_cons_of_pos]
      rw [h]
      exact decide_eq_true rfl
    · obtain ⟨m0, hf0, hr0⟩ := ih r h
      refine ⟨m0, ?_, hr0⟩
      rw [List.find?_cons_of_neg]
      · exact hf0
      · have : ¬ m.ID = r.id := fun he => hne he.symm
        simpa using this

theorem upsertInAppMessage_cases (s : Store) (msg : InAppMessage) :
    (∃ fs, UpsertInAppMessage s msg = ({ db := s.db, faults := fs }, some DBError.storageFault)) ∨
    (∃ fs, UpsertInAppMessage s msg
      = ({ db := { app_version := s.db.app_version
                   in_app_messages := upsertRows s.db.in_app_messages (messageRow msg) }
           faults := fs }, none)) := by
  unfold UpsertInAppMessage dbExec nextFault
  rcases hfs : s.faults with _ | ⟨f, fs⟩
  · right
    refine ⟨s.faults, ?_⟩
    simp [sqlUpsertMessage]
  · cases f
    · right
      exact ⟨fs, by simp [sqlUpsertMessage]⟩
    · left
      exact ⟨fs, by simp⟩

theorem insertNewMessages_cases (msgs : List InAppMessage) (s : Store) :
    (∃ fs, insertNewMessages s msgs
      = ({ db := { app_version := s.db.app_version
                   in_app_messages := msgs.foldl (fun rows m => upsertRows rows (messageRow m))
                     s.db.in_app_messages }
           faults := fs }, none)) ∨
    (∃ k fs, k < msgs.length ∧ insertNewMessages s msgs
      = ({ db := { app_version := s.db.app_version
                   in_app_messages := (msgs.take k).foldl
                     (fun rows m => upsertRows rows (messageRow m)) s.db.in_app_messages }
           faults := fs }, some DBError.storageFault)) := by
  induction msgs generalizing s with
  | nil => exact Or.inl ⟨s.faults, rfl⟩
  | cons m rest ih =>
    unfold insertNewMessages
    rcases upsertInAppMessage_cases s m with ⟨fs, h⟩ | ⟨fs, h⟩
    · right
      refine ⟨0, fs, by simp, ?_⟩
      rw [h]
      rfl
    · rw [h]
      rcases ih { db := { app_version := s.db.app_version
                          in_app_messages := upsertRows s.db.in_app_messages (messageRow m) }
                  faults := fs } with ⟨fs2, h2⟩ | ⟨k, fs2, hk, h2⟩
      · left
        exact ⟨fs2, by simp only [h2, List.foldl_cons]⟩
      · right
        refine ⟨k + 1, fs2, by simpa using hk, ?_⟩
        simp only [h2, List.take_succ_cons, List.foldl_cons]

theorem replaceAllMessages_cases (s : Store) (newMessages : Option (List InAppMessage)) :
    (∃ fs, replaceAllMessages s newMessages
      = ({ db := s.db, faults := fs },
          some (UpdateConfigResponse.failedToClearMessages DBError.storageFault))) ∨
    (∃ k fs, k < (sliceList newMessages).length ∧ replaceAllMessages s newMessages
      = ({ db := { app_version := s.db.app_version
                   in_app_messages := ((sliceList newMessages).take k).foldl
                     (fun rows m => upsertRows rows (messageRow m)) [] }
           faults := fs },
          some (UpdateConfigResponse.failedToInsertMessage DBError.storageFault))) ∨
    (∃ fs, replaceAllMessages s newMessages
      = ({ db := { app_version := s.db.app_version
                   in_app_messages := (sliceList newMessages).foldl
                     (fun rows m => upsertRows rows (messageRow m)) [] }
           faults := fs }, none)) := by
  have hdel : (∃ fs, dbExec sqlDeleteAllMessages s
        = ({ db := s.db, faults := fs }, some DBError.storageFault)) ∨
      (∃ fs, dbExec sqlDeleteAllMessages s
        = ({ db := { app_version := s.db.app_version, in_app_messages := [] }, faults := fs },
            none)) := by
    unfold dbExec nextFault
    rcases hfs : s.faults with _ | ⟨f, fs⟩
    · right
      exact ⟨s.faults, by simp [sqlDeleteAllMessages]⟩
    · cases f
      · right
        exact ⟨fs, by simp [sqlDeleteAllMessages]⟩
      · left
        exact ⟨fs, by simp⟩
  unfold replaceAllMessages
  rcases hdel with ⟨fs, h⟩ | ⟨fs, h⟩
  · left
    exact ⟨fs, by rw [h]⟩
  · right
    rw [h]
    rcases insertNewMessages_cases (sliceList newMessages)
        { db := { app_version := s.db.app_version, in_app_messages := [] }, faults := fs }
      with ⟨fs2, h2⟩ | ⟨k, fs2, hk, h2⟩
    · right
      exact ⟨fs2, by simp only [h2]⟩
    · left
      exact ⟨k, fs2, hk, by simp only [h2]⟩

theorem dbExec_of_fault {stmt : DB → Except DBError DB} {s : Store} {fs : List Bool}
    (hf : s.faults = true :: fs) :
    dbExec stmt s = ({ db := s.db, faults := fs }, some DBError.storageFault) := by
  unfold dbExec nextFault
  simp [hf]

theorem dbExec_of_no_fault {stmt : DB → Except DBError DB} {s : Store} {fs : List Bool}
    {db1 : DB} (hf : s.faults = false :: fs) (h : stmt s.db = Except.ok db1) :
    dbExec stmt s = ({ db := db1, faults := fs }, none) := by
  unfold dbExec nextFault
  simp [hf, h]

theorem insertNewMessages_failure (msgs : List InAppMessage) :
    ∀ (s : Store) (err : DBError), (insertNewMessages s msgs).2 = some err →
      ∃ k, k < msgs.length ∧
        s.faults.take (k + 1) = List.replicate k false ++ [true] ∧
        err = DBError.storageFault ∧
        (insertNewMessages s msgs).1.db
          = { app_version := s.db.app_version
              in_app_messages := (msgs.take k).foldl
                (fun rows m => upsertRows rows (messageRow m)) s.db.in_app_messages } := by
  induction msgs with
  | nil =>
    intro s err h
    cases h
  | cons m rest ih =>
    intro s err h
    rcases hfs : s.faults with _ | ⟨f, fs⟩
    · rw [insertNewMessages_of_nil _ _ hfs] at h
      cases h
    · cases f
      · have hu : UpsertInAppMessage s m
            = ({ db := { app_version := s.db.app_version
                         in_app_messages := upsertRows s.db.in_app_messages (messageRow m) }
                 faults := fs }, none) := by
          unfold UpsertInAppMessage
          exact dbExec_of_no_fault hfs rfl
        unfold insertNewMessages at h ⊢
        rw [hu] at h ⊢
        simp only at h ⊢
        obtain ⟨k, hk, hpat, herr, hdb⟩ := ih _ err h
        refine ⟨k + 1, by rw [List.length_cons]; omega, ?_, herr, ?_⟩
        · simp only at hpat
          rw [List.take_succ_cons, hpat, List.replicate_succ, List.cons_append]
        · rw [hdb, List.take_succ_cons, List.foldl_cons]
      · have hu : UpsertInAppMessage s m
            = ({ db := s.db, faults := fs }, some DBError.storageFault) := by
          unfold UpsertInAppMessage
          exact dbExec_of_fault hfs
        unfold insertNewMessages at h ⊢
        rw [hu] at h ⊢
        simp only at h ⊢
        refine ⟨0, by simp, by simp, (Option.some.inj h).symm, rfl⟩

/-! ## C8: full replacement of the message collection -/

/-- C8. On every prior store state whose storage engine does not fault, and for
every new list with pairwise distinct identifiers, the replacement succeeds,
the table then holds exactly the rows of the new list, and `GetInAppMessages`
returns a permutation of the new list (none of the old records), so an empty
list when the new list is empty. -/
theorem replaceAllMessages_then_getInAppMessages (s : Store)
    (newMessages : Option (List InAppMessage)) (hf : s.faults = [])
    (hnd : ((sliceList newMessages).map (fun m => m.ID)).Nodup) :
    (replaceAllMessages s newMessages).2 = none ∧
    (replaceAllMessages s newMessages).1.db.in_app_messages
      = (sliceList newMessages).map messageRow ∧
    ∃ messages,
      (GetInAppMessages (replaceAllMessages s newMessages).1).2 = Except.ok messages ∧
      (sliceList messages).Perm (sliceList newMessages) ∧
      (sliceList newMessages = [] → sliceList messages = []) := by
  have hr := replaceAllMessages_of_nil s hf newMessages
  have hfold := foldl_upsertRows_of_nodup (sliceList newMessages) [] hnd (by simp)
  rw [List.nil_append] at hfold
  have hf2 : (replaceAllMessages s newMessages).1.faults = [] := by rw [hr]; exact hf
  have hrows : (replaceAllMessages s newMessages).1.db.in_app_messages
      = (sliceList newMessages).map messageRow := by rw [hr]; exact hfold
  have hperm : (sliceList ((((replaceAllMessages s newMessages).1.db.in_app_messages.insertionSort
      priorityDesc).foldl (fun messages row => appendSlice messages (scanMessage row)) none))).Perm
      (sliceList newMessages) := by
    rw [sliceList_foldl_appendSlice]
    have h1 := (List.perm_insertionSort priorityDesc
      (replaceAllMessages s newMessages).1.db.in_app_messages).map scanMessage
    rw [hrows, List.map_map] at h1
    have h2 : (sliceList newMessages).map (scanMessage ∘ messageRow) = sliceList newMessages := by
      conv_rhs => rw [← List.map_id (sliceList newMessages)]
      exact List.map_congr_left (fun m _ => scanMessage_messageRow m)
    rw [h2, ← hrows] at h1
    simpa [sliceList] using h1
  refine ⟨by rw [hr], hrows, _, by rw [getInAppMessages_of_nil hf2], hperm, ?_⟩
  intro hnil
  rw [hnil] at hperm
  exact List.Perm.eq_nil hperm

/-- Witness of C8: replacing the three sample messages by two others. -/
theorem replaceAllMessages_then_getInAppMessages_witness :
    sampleStore.faults = [] ∧
    (replaceAllMessages sampleStore
        (some [sampleMessage "x" "X" 1, sampleMessage "y" "Y" 2])).2 = none ∧
    (replaceAllMessages sampleStore
        (some [sampleMessage "x" "X" 1, sampleMessage "y" "Y" 2])).1.db.in_app_messages
      = (sliceList (some [sampleMessage "x" "X" 1, sampleMessage "y" "Y" 2])).map messageRow ∧
    ∃ messages,
      (GetInAppMessages (replaceAllMessages sampleStore
        (some [sampleMessage "x" "X" 1, sampleMessage "y" "Y" 2])).1).2 = Except.ok messages ∧
      (sliceList messages).Perm (sliceList (some [sampleMessage "x" "X" 1, sampleMessage "y" "Y" 2])) ∧
      (sliceList (some [sampleMessage "x" "X" 1, sampleMessage "y" "Y" 2]) = [] →
        sliceList messages = []) :=
  ⟨rfl, replaceAllMessages_then_getInAppMessages sampleStore
    (some [sampleMessage "x" "X" 1, sampleMessage "y" "Y" 2]) rfl (by decide)⟩

/-! ## C10: duplicate identifiers in a configuration update -/

/-- C10. For every new message list, duplicates included, the replacement on a
store whose storage engine does not fault reports no failure; the table then
holds one record per distinct identifier of the list (unique identifiers, the
same set as in the list), each record is the last record of the list carrying
its identifier, and the number of records is the number of distinct
identifiers, below the length of the list when it has duplicates. -/
theorem replaceAllMessages_duplicates_last_wins (s : Store)
    (newMessages : Option (List InAppMessage)) (hf : s.faults = []) :
    (replaceAllMessages s newMessages).2 = none ∧
    ((replaceAllMessages s newMessages).1.db.in_app_messages.map (fun r => r.id)).Nodup ∧
    (∀ id, id ∈ (replaceAllMessages s newMessages).1.db.in_app_messages.map (fun r => r.id)
        ↔ id ∈ (sliceList newMessages).map (fun m => m.ID)) ∧
    (∀ r ∈ (replaceAllMessages s newMessages).1.db.in_app_messages,
        (sliceList newMessages).reverse.find? (fun m => decide (m.ID = r.id))
          = some (scanMessage r)) ∧
    (replaceAllMessages s newMessages).1.db.in_app_messages.length
      = ((sliceList newMessages).map (fun m => m.ID)).dedup.length ∧
    (¬ ((sliceList newMessages).map (fun m => m.ID)).Nodup →
      (replaceAllMessages s newMessages).1.db.in_app_messages.length
        < (sliceList newMessages).length) := by
  rw [replaceAllMessages_of_nil s hf newMessages]
  have hnd := nodup_foldl_upsertRows (sliceList newMessages) [] List.nodup_nil
  have hmem : ∀ id, id ∈ ((sliceList newMessages).foldl
      (fun rows m => upsertRows rows (messageRow m)) []).map (fun r => r.id)
        ↔ id ∈ (sliceList newMessages).map (fun m => m.ID) := by
    intro id
    rw [mem_id_foldl_upsertRows]
    simp
  have hlen : ((sliceList newMessages).foldl
      (fun rows m => upsertRows rows (messageRow m)) []).length
        = ((sliceList newMessages).map (fun m => m.ID)).dedup.length := by
    have hp : (((sliceList newMessages).foldl
        (fun rows m => upsertRows rows (messageRow m)) []).map (fun r => r.id)).Perm
        ((sliceList newMessages).map (fun m => m.ID)).dedup :=
      (List.perm_ext_iff_of_nodup hnd (List.nodup_dedup _)).2
        (fun id => by rw [hmem id, List.mem_dedup])
    rw [← hp.length_eq, List.length_map]
  refine ⟨rfl, hnd, hmem, ?_, hlen, ?_⟩
  · intro r hr
    obtain ⟨m, hfind, hrm⟩ := last_wins_foldl_upsertRows (sliceList newMessages) r hr
    rw [hfind, hrm, scanMessage_messageRow]
  · intro hdup
    show ((sliceList newMessages).foldl
      (fun rows m => upsertRows rows (messageRow m)) []).length < _
    rw [hlen]
    have hsub := List.dedup_sublist ((sliceList newMessages).map (fun m => m.ID))
    have hle := hsub.length_le
    rw [List.length_map] at hle
    rcases Nat.lt_or_ge ((sliceList newMessages).map (fun m => m.ID)).dedup.length
      (sliceList newMessages).length with h | h
    · exact h
    · exfalso
      apply hdup
      have heq := hsub.eq_of_length_le (by rw [List.length_map]; exact h)
      rw [← heq]
      exact List.nodup_dedup _

/-- Witness of C10: a list in which the identifier `x` occurs twice. -/
theorem replaceAllMessages_duplicates_last_wins_witness :
    sampleStore.faults = [] ∧
    (replaceAllMessages sampleStore (some [sampleMessage "x" "first" 1,
        sampleMessage "y" "Y" 2, sampleMessage "x" "last" 3])).1.db.in_app_messages
      = [messageRow (sampleMessage "x" "last" 3), messageRow (sampleMessage "y" "Y" 2)] ∧
    (replaceAllMessages sampleStore (some [sampleMessage "x" "first" 1,
        sampleMessage "y" "Y" 2, sampleMessage "x" "last" 3])).1.db.in_app_messages.length
      = ((sliceList (some [sampleMessage "x" "first" 1,
          sampleMessage "y" "Y" 2, sampleMessage "x" "last" 3])).map (fun m => m.ID)).dedup.length :=
  ⟨rfl, by decide,
    (replaceAllMessages_duplicates_last_wins sampleStore (some [sampleMessage "x" "first" 1,
      sampleMessage "y" "Y" 2, sampleMessage "x" "last" 3]) rfl).2.2.2.2.1⟩

/-! ## C3: a failed replacement is not rolled back -/

/-- C3, counterexample. The store holds the message `a`; the replacement by
`[b, c]` deletes `a`, inserts `b`, and the insert of `c` fails with a storage
fault. The handler answers "Failed to insert message" and the store then holds
`b` alone: neither the state before the call nor the new list. -/
theorem replaceAllMessages_not_atomic :
    (replaceAllMessages faultyStore
        (some [sampleMessage "b" "B" 10, sampleMessage "c" "C" 8])).2
      = some (UpdateConfigResponse.failedToInsertMessage DBError.storageFault) ∧
    (replaceAllMessages faultyStore
        (some [sampleMessage "b" "B" 10, sampleMessage "c" "C" 8])).1.db.in_app_messages
      = [messageRow (sampleMessage "b" "B" 10)] ∧
    faultyStore.db.in_app_messages = [messageRow (sampleMessage "a" "A" 5)] ∧
    (replaceAllMessages faultyStore
        (some [sampleMessage "b" "B" 10, sampleMessage "c" "C" 8])).1.db.in_app_messages
      ≠ faultyStore.db.in_app_messages := by
  decide

/-- C3, amended. A replacement that fails does so in one of two ways. Either
the DELETE, the first statement, fails with a storage fault and the database
is unchanged; or the DELETE and the inserts of the first `k` messages of the new
list succeed and the insert of the message at index `k` fails with a storage
fault, and then nothing is rolled back: the old records are gone and the table
holds the result of upserting the first `k` messages of the new list into the
emptied table. The version table is unchanged in both cases. -/
theorem replaceAllMessages_failure_not_rolled_back (s : Store)
    (newMessages : Option (List InAppMessage)) (response : UpdateConfigResponse)
    (h : (replaceAllMessages s newMessages).2 = some response) :
    (response = UpdateConfigResponse.failedToClearMessages DBError.storageFault ∧
      s.faults.take 1 = [true] ∧
      (replaceAllMessages s newMessages).1.db = s.db) ∨
    (∃ k, k < (sliceList newMessages).length ∧
      s.faults.take (k + 2) = List.replicate (k + 1) false ++ [true] ∧
      response = UpdateConfigResponse.failedToInsertMessage DBError.storageFault ∧
      (replaceAllMessages s newMessages).1.db
        = { app_version := s.db.app_version
            in_app_messages := ((sliceList newMessages).take k).foldl
              (fun rows m => upsertRows rows (messageRow m)) [] }) := by
  rcases hfs : s.faults with _ | ⟨f, fs⟩
  · rw [replaceAllMessages_of_nil s hfs] at h
    cases h
  · cases f
    · right
      have hd : dbExec sqlDeleteAllMessages s
          = ({ db := { app_version := s.db.app_version, in_app_messages := [] }
               faults := fs }, none) := dbExec_of_no_fault hfs rfl
      unfold replaceAllMessages at h ⊢
      rw [hd] at h ⊢
      simp only at h ⊢
      rcases hres : insertNewMessages
          { db := { app_version := s.db.app_version, in_app_messages := [] }, faults := fs }
          (sliceList newMessages) with ⟨s2, e⟩
      rw [hres] at h
      cases e with
      | none => cases h
      | some err =>
        simp only at h ⊢
        obtain ⟨k, hk, hpat, herr, hdb⟩ := insertNewMessages_failure (sliceList newMessages)
          { db := { app_version := s.db.app_version, in_app_messages := [] }, faults := fs }
          err (by rw [hres])
        rw [hres] at hdb
        simp only at hpat hdb
        refine ⟨k, hk, ?_, ?_, hdb⟩
        · rw [List.take_succ_cons, hpat, List.replicate_succ, List.cons_append]
        · rw [← Option.some.inj h, herr]
    · left
      have hd : dbExec sqlDeleteAllMessages s
          = ({ db := s.db, faults := fs }, some DBError.storageFault) := dbExec_of_fault hfs
      unfold replaceAllMessages at h ⊢
      rw [hd] at h ⊢
      exact ⟨(Option.some.inj h).symm, rfl, rfl⟩

/-- Witness of C3 amended, at the counterexample: the fault pattern fixes the
index, and the store holds `b` alone. -/
theorem replaceAllMessages_failure_not_rolled_back_witness :
    (replaceAllMessages faultyStore
        (some [sampleMessage "b" "B" 10, sampleMessage "c" "C" 8])).2
      = some (UpdateConfigResponse.failedToInsertMessage DBError.storageFault) ∧
    faultyStore.faults.take (1 + 2) = List.replicate (1 + 1) false ++ [true] ∧
    ((UpdateConfigResponse.failedToInsertMessage DBError.storageFault
        = UpdateConfigResponse.failedToClearMessages DBError.storageFault ∧
      faultyStore.faults.take 1 = [true] ∧
      (replaceAllMessages faultyStore
        (some [sampleMessage "b" "B" 10, sampleMessage "c" "C" 8])).1.db = faultyStore.db) ∨
    (∃ k, k < (sliceList (some [sampleMessage "b" "B" 10, sampleMessage "c" "C" 8])).length ∧
      faultyStore.faults.take (k + 2) = List.replicate (k + 1) false ++ [true] ∧
      UpdateConfigResponse.failedToInsertMessage DBError.storageFault
        = UpdateConfigResponse.failedToInsertMessage DBError.storageFault ∧
      (replaceAllMessages faultyStore
        (some [sampleMessage "b" "B" 10, sampleMessage "c" "C" 8])).1.db
        = { app_version := faultyStore.db.app_version
            in_app_messages := ((sliceList (some [sampleMessage "b" "B" 10,
              sampleMessage "c" "C" 8])).take k).foldl
              (fun rows m => upsertRows rows (messageRow m)) [] })) :=
  ⟨by decide, by decide, replaceAllMessages_failure_not_rolled_back faultyStore
    (some [sampleMessage "b" "B" 10, sampleMessage "c" "C" 8]) _ (by decide)⟩

/-! ## Lemmas on initialization -/

theorem initDB_emptyDB (today : GoString) :
    InitDB { db := emptyDB, faults := [] } today
      = ({ db := seededDB today, faults := [] }, none) := by
  rfl

theorem insertDefaultData_of_nonempty (s : Store) (today : GoString)
    (h : s.db.app_version ≠ []) :
    (insertDefaultData s today).1.db = s.db ∧
    (s.faults = [] → insertDefaultData s today = (s, none)) := by
  have hlen : ¬ s.db.app_version.length = 0 := fun h0 => h (List.length_eq_zero.1 h0)
  constructor
  · unfold insertDefaultData dbQuery nextFault
    rcases s.faults with _ | ⟨f, fs⟩
    · simp [sqlCountVersion, hlen]
    · cases f <;> simp [sqlCountVersion, hlen]
  · intro hf
    unfold insertDefaultData
    rw [dbQuery_of_nil hf]
    simp [sqlCountVersion, hlen]

theorem dbQuery_db {α : Type} (q : DB → Except DBError α) (s : Store) :
    (dbQuery q s).1.db = s.db := by
  unfold dbQuery nextFault
  rcases s.faults with _ | ⟨f, fs⟩
  · simp
  · cases f <;> simp

theorem dbQuery_ok {α : Type} {q : DB → Except DBError α} {s : Store} {a : α}
    (h : (dbQuery q s).2 = Except.ok a) : q s.db = Except.ok a := by
  unfold dbQuery nextFault at h
  rcases hfs : s.faults with _ | ⟨f, fs⟩
  · simpa [hfs] using h
  · cases f
    · simpa [hfs] using h
    · simp [hfs] at h

theorem dbExec_db (stmt : DB → Except DBError DB) (s : Store) :
    ((dbExec stmt s).1.db = s.db ∧ (dbExec stmt s).2 ≠ none) ∨
    (stmt s.db = Except.ok (dbExec stmt s).1.db ∧ (dbExec stmt s).2 = none) := by
  unfold dbExec nextFault
  rcases s.faults with _ | ⟨f, fs⟩
  · cases hst : stmt s.db <;> simp [hst]
  · cases f
    · cases hst : stmt s.db <;> simp [hst]
    · simp

theorem dbExec_version_ids (stmt : DB → Except DBError DB) (s : Store)
    (hstmt : ∀ db1, stmt s.db = Except.ok db1 →
      db1.app_version.map (fun r => r.id) = s.db.app_version.map (fun r => r.id)) :
    (dbExec stmt s).1.db.app_version.map (fun r => r.id)
      = s.db.app_version.map (fun r => r.id) := by
  rcases dbExec_db stmt s with ⟨h, _⟩ | ⟨h, _⟩
  · rw [h]
  · exact hstmt _ h

theorem insertDefaultMessages_version (msgs : List InAppMessage) (s : Store) :
    (insertDefaultMessages s msgs).1.db.app_version = s.db.app_version := by
  induction msgs generalizing s with
  | nil => rfl
  | cons m rest ih =>
    unfold insertDefaultMessages
    have hd := dbExec_db (sqlInsertMessage (messageRow m)) s
    rcases hres : dbExec (sqlInsertMessage (messageRow m)) s with ⟨s1, e⟩
    rw [hres] at hd
    have hv : s1.db.app_version = s.db.app_version := by
      rcases hd with ⟨h, _⟩ | ⟨h, _⟩
      · simpa using congrArg DB.app_version h
      · simp only at h
        unfold sqlInsertMessage at h
        split at h
        · cases h
        · rw [← Except.ok.inj h]
    cases e with
    | some err => exact hv
    | none => simp only; rw [ih, hv]

theorem insertDefaultData_version_of_empty (s : Store) (today : GoString)
    (hempty : s.db.app_version = []) (hok : (insertDefaultData s today).2 = none) :
    (insertDefaultData s today).1.db.app_version = [defaultVersionRow today] := by
  unfold insertDefaultData at hok ⊢
  have hq := dbQuery_db sqlCountVersion s
  rcases hres : dbQuery sqlCountVersion s with ⟨s1, c⟩
  rw [hres] at hq hok
  simp only at hq
  cases c with
  | error err => simp at hok
  | ok count =>
    have hc : count = 0 := by
      have := dbQuery_ok (by rw [hres] : (dbQuery sqlCountVersion s).2 = Except.ok count)
      unfold sqlCountVersion at this
      rw [hempty] at this
      exact (Except.ok.inj this).symm
    subst hc
    simp only [if_true] at hok ⊢
    have hd := dbExec_db (sqlInsertVersion (defaultVersionRow today)) s1
    rcases hres2 : dbExec (sqlInsertVersion (defaultVersionRow today)) s1 with ⟨s2, e⟩
    rw [hres2] at hd hok
    cases e with
    | some err => simp at hok
    | none =>
      simp only at hok ⊢
      rw [insertDefaultMessages_version]
      rcases hd with ⟨_, h⟩ | ⟨h, _⟩
      · simp at h
      · simp only [hq] at h
        unfold sqlInsertVersion at h
        rw [hempty] at h
        have h2 : (defaultVersionRow today).id = 1 := rfl
        simp [h2] at h
        rw [← h]

theorem initDB_version_of_empty (s : Store) (today : GoString)
    (hempty : s.db.app_version = []) (hok : (InitDB s today).2 = none) :
    (InitDB s today).1.db.app_version = [defaultVersionRow today] := by
  unfold InitDB at hok ⊢
  have hd1 := dbExec_db Except.ok s
  rcases hres1 : dbExec Except.ok s with ⟨s1, e1⟩
  rw [hres1] at hd1 hok
  have hs1 : s1.db = s.db := by
    rcases hd1 with ⟨h, _⟩ | ⟨h, _⟩
    · exact h
    · exact (Except.ok.inj h).symm
  cases e1 with
  | some err => simp at hok
  | none =>
    simp only at hok ⊢
    have hd2 := dbExec_db sqlCreateTables s1
    rcases hres2 : dbExec sqlCreateTables s1 with ⟨s2, e2⟩
    rw [hres2] at hd2 hok
    have hs2 : s2.db = s1.db := by
      rcases hd2 with ⟨h, _⟩ | ⟨h, _⟩
      · exact h
      · exact (Except.ok.inj h).symm
    cases e2 with
    | some err => simp at hok
    | none =>
      simp only at hok ⊢
      exact insertDefaultData_version_of_empty s2 today (by rw [hs2, hs1, hempty]) hok

theorem dbExec_ok_db (s : Store) (stmt : DB → Except DBError DB)
    (hstmt : ∀ db, stmt db = Except.ok db) : (dbExec stmt s).1.db = s.db := by
  rcases dbExec_db stmt s with ⟨h, _⟩ | ⟨h, _⟩
  · exact h
  · rw [hstmt] at h
    exact (Except.ok.inj h).symm

theorem initDB_of_nonempty (s : Store) (today : GoString) (h : s.db.app_version ≠ []) :
    (InitDB s today).1.db = s.db := by
  unfold InitDB
  have hd1 := dbExec_ok_db s Except.ok (fun _ => rfl)
  rcases hres1 : dbExec Except.ok s with ⟨s1, e1⟩
  rw [hres1] at hd1
  simp only at hd1
  cases e1 with
  | some err => exact hd1
  | none =>
    simp only
    have hd2 := dbExec_ok_db s1 sqlCreateTables (fun _ => rfl)
    rcases hres2 : dbExec sqlCreateTables s1 with ⟨s2, e2⟩
    rw [hres2] at hd2
    simp only at hd2
    cases e2 with
    | some err => simp only; rw [hd2, hd1]
    | none =>
      simp only
      rw [(insertDefaultData_of_nonempty s2 today (by rw [hd2, hd1]; exact h)).1, hd2, hd1]

theorem getAppVersion_db (s : Store) : (GetAppVersion s).1.db = s.db := by
  unfold GetAppVersion
  have hq := dbQuery_db sqlSelectVersion s
  rcases hres : dbQuery sqlSelectVersion s with ⟨s1, r⟩
  rw [hres] at hq
  cases r <;> exact hq

theorem getInAppMessages_db (s : Store) : (GetInAppMessages s).1.db = s.db := by
  unfold GetInAppMessages
  have hq := dbQuery_db sqlSelectMessages s
  rcases hres : dbQuery sqlSelectMessages s with ⟨s1, r⟩
  rw [hres] at hq
  cases r <;> exact hq

theorem getAppConfigHandler_db (s : Store) : (GetAppConfigHandler s).1.db = s.db := by
  unfold GetAppConfigHandler
  have h1 := getAppVersion_db s
  rcases hres : GetAppVersion s with ⟨s1, r⟩
  rw [hres] at h1
  cases r with
  | error err => exact h1
  | ok version =>
    simp only
    have h2 := getInAppMessages_db s1
    rcases hres2 : GetInAppMessages s1 with ⟨s2, r2⟩
    rw [hres2] at h2
    simp only at h1 h2
    cases r2 <;> simp only <;> rw [h2, h1]

theorem updateAppVersion_version_ids (s : Store) (version : AppVersion) :
    (UpdateAppVersion s version).1.db.app_version.map (fun r => r.id)
      = s.db.app_version.map (fun r => r.id) := by
  unfold UpdateAppVersion
  apply dbExec_version_ids
  intro db1 h
  unfold sqlUpdateVersion at h
  rw [← Except.ok.inj h]
  simp only [List.map_map]
  apply List.map_congr_left
  intro r _
  by_cases hr : r.id = 1 <;> simp [hr, updatedVersionRow]

theorem replaceAllMessages_version (s : Store) (newMessages : Option (List InAppMessage)) :
    (replaceAllMessages s newMessages).1.db.app_version = s.db.app_version := by
  rcases replaceAllMessages_cases s newMessages with ⟨fs, hc⟩ | ⟨k, fs, _, hc⟩ | ⟨fs, hc⟩ <;>
    rw [hc]

theorem runOp_version_ids (op : StoreOp) (s : Store)
    (h : s.db.app_version.map (fun r => r.id) = [1]) :
    (runOp op s).db.app_version.map (fun r => r.id) = [1] := by
  cases op with
  | initDB today =>
    have hne : s.db.app_version ≠ [] := by
      intro h0
      rw [h0] at h
      cases h
    show (InitDB s today).1.db.app_version.map (fun r => r.id) = [1]
    rw [initDB_of_nonempty s today hne]
    exact h
  | getAppVersion =>
    show (GetAppVersion s).1.db.app_version.map (fun r => r.id) = [1]
    rw [getAppVersion_db]
    exact h
  | getInAppMessages =>
    show (GetInAppMessages s).1.db.app_version.map (fun r => r.id) = [1]
    rw [getInAppMessages_db]
    exact h
  | getAppConfig =>
    show (GetAppConfigHandler s).1.db.app_version.map (fun r => r.id) = [1]
    rw [getAppConfigHandler_db]
    exact h
  | updateAppVersion version =>
    show (UpdateAppVersion s version).1.db.app_version.map (fun r => r.id) = [1]
    rw [updateAppVersion_version_ids]
    exact h
  | upsertInAppMessage msg =>
    show (UpsertInAppMessage s msg).1.db.app_version.map (fun r => r.id) = [1]
    rcases upsertInAppMessage_cases s msg with ⟨fs, hc⟩ | ⟨fs, hc⟩ <;> rw [hc] <;> exact h
  | deleteInAppMessage id =>
    show (DeleteInAppMessage s id).1.db.app_version.map (fun r => r.id) = [1]
    unfold DeleteInAppMessage
    rw [dbExec_version_ids]
    · exact h
    · intro db1 hd
      unfold sqlDeleteMessage at hd
      rw [← Except.ok.inj hd]
  | updateAppConfig body =>
    show (UpdateAppConfigHandler s body).1.db.app_version.map (fun r => r.id) = [1]
    unfold UpdateAppConfigHandler
    cases body with
    | none => exact h
    | some newConfig =>
      simp only
      have h1 := updateAppVersion_version_ids s newConfig.AppVersion
      rcases hres : UpdateAppVersion s newConfig.AppVersion with ⟨s1, e1⟩
      rw [hres] at h1
      simp only at h1
      cases e1 with
      | some err => simp only; rw [h1]; exact h
      | none =>
        simp only
        have h2 := replaceAllMessages_version s1 newConfig.InAppMessages
        rcases hres2 : replaceAllMessages s1 newConfig.InAppMessages with ⟨s2, e2⟩
        rw [hres2] at h2
        simp only at h2
        cases e2 <;> simp only <;> rw [h2, h1] <;> exact h

theorem reachable_version_ids (s : Store) (h : Reachable s) :
    s.db.app_version.map (fun r => r.id) = [1] := by
  induction h with
  | init s0 today hschema hok =>
    rcases hschema with h0 | h1
    · rw [initDB_version_of_empty s0 today (List.map_eq_nil_iff.1 h0) hok]
      rfl
    · have hne : s0.db.app_version ≠ [] := by
        intro he
        rw [he] at h1
        cases h1
      rw [initDB_of_nonempty s0 today hne]
      exact h1
  | step op s _ ih => exact runOp_version_ids op s ih

theorem sqlSelectVersion_of_ids (db : DB) (h : db.app_version.map (fun r => r.id) = [1]) :
    ∃ row, db.app_version = [row] ∧ row.id = 1 ∧ sqlSelectVersion db = Except.ok row := by
  rcases hrows : db.app_version with _ | ⟨row, rest⟩
  · rw [hrows] at h
    cases h
  · rw [hrows, List.map_cons, List.cons.injEq, List.map_eq_nil_iff] at h
    refine ⟨row, by rw [h.2], h.1, ?_⟩
    unfold sqlSelectVersion
    rw [hrows, List.find?_cons_of_pos]
    exact decide_eq_true h.1

/-! ## C9: the version record is a singleton -/

/-- C9. In every state the program reaches from an initialized store, whatever
calls were made and whatever statements faulted on the way, the table
`app_version` holds exactly one row, the row with id 1; `GetAppVersion` never
answers `sql.ErrNoRows` there, and it returns the record of that row whenever
the storage engine does not fault. -/
theorem reachable_singleton_version (s : Store) (h : Reachable s) :
    s.db.app_version.map (fun r => r.id) = [1] ∧
    s.db.app_version.length = 1 ∧
    (GetAppVersion s).2 ≠ Except.error DBError.noRows ∧
    ∃ row, s.db.app_version = [row] ∧
      (GetAppVersion { db := s.db, faults := [] }).2 = Except.ok (scanVersion row) := by
  have hids := reachable_version_ids s h
  obtain ⟨row, hrow, _, hsel⟩ := sqlSelectVersion_of_ids s.db hids
  refine ⟨hids, by rw [hrow]; rfl, ?_, row, hrow, ?_⟩
  · unfold GetAppVersion dbQuery nextFault
    rcases s.faults with _ | ⟨f, fs⟩
    · simp [hsel]
    · cases f <;> simp [hsel]
  · unfold GetAppVersion
    rw [dbQuery_of_nil rfl]
    simp only [hsel]

/-- Witness of C9: the store after the first start and a replaced version. -/
theorem reachable_singleton_version_witness :
    Reachable (runOp (StoreOp.updateAppVersion (scanVersion (defaultVersionRow [])))
      (InitDB { db := emptyDB, faults := [] } (goString "2025-11-01")).1) ∧
    (runOp (StoreOp.updateAppVersion (scanVersion (defaultVersionRow [])))
      (InitDB { db := emptyDB, faults := [] } (goString "2025-11-01")).1).db.app_version.length
      = 1 :=
  ⟨Reachable.step _ _ (Reachable.init { db := emptyDB, faults := [] } _ (Or.inl rfl) rfl),
    (reachable_singleton_version _ (Reachable.step _ _
      (Reachable.init { db := emptyDB, faults := [] } _ (Or.inl rfl) rfl))).2.1⟩

/-! ## C5: seeding is idempotent -/

/-- C5. Starting from the empty store, the first `InitDB` succeeds and leaves
exactly one version row and exactly the three default messages, under distinct
identifiers; a second `InitDB`, on any day, succeeds and leaves the store as
the first one did. More generally, on any store that already has a version
row, `insertDefaultData` and `InitDB` change nothing in the database, whether
or not a statement faults. -/
theorem initDB_idempotent (d1 d2 : GoString) :
    (InitDB { db := emptyDB, faults := [] } d1).2 = none ∧
    InitDB (InitDB { db := emptyDB, faults := [] } d1).1 d2
      = InitDB { db := emptyDB, faults := [] } d1 ∧
    (InitDB { db := emptyDB, faults := [] } d1).1.db.app_version = [defaultVersionRow d1] ∧
    (InitDB { db := emptyDB, faults := [] } d1).1.db.in_app_messages
      = defaultMessages.map messageRow ∧
    defaultMessages.length = 3 ∧
    (defaultMessages.map (fun m => m.ID)).Nodup ∧
    (∀ (s : Store) (today : GoString), s.db.app_version ≠ [] →
      (insertDefaultData s today).1.db = s.db ∧ (InitDB s today).1.db = s.db) := by
  refine ⟨rfl, rfl, rfl, rfl, rfl, by decide, ?_⟩
  intro s today hne
  exact ⟨(insertDefaultData_of_nonempty s today hne).1, initDB_of_nonempty s today hne⟩

/-- Witness of C5: a third start, on a store seeded and started twice. -/
theorem initDB_idempotent_witness :
    (InitDB { db := emptyDB, faults := [] } (goString "2025-11-01")).1.db.app_version ≠ [] ∧
    (InitDB (InitDB { db := emptyDB, faults := [] } (goString "2025-11-01")).1
        (goString "2025-11-02")).1.db
      = (InitDB { db := emptyDB, faults := [] } (goString "2025-11-01")).1.db :=
  ⟨by simp [initDB_emptyDB, seededDB],
    ((initDB_idempotent [] []).2.2.2.2.2.2
      (InitDB { db := emptyDB, faults := [] } (goString "2025-11-01")).1 (goString "2025-11-02")
      (by simp [initDB_emptyDB, seededDB])).2⟩


/-! ## Lemmas on UTF-8 and JSON -/

theorem inRange_iff (b lo hi : Nat) : inRange b lo hi = true ↔ lo ≤ b ∧ b ≤ hi := by
  simp only [inRange, Bool.and_eq_true, decide_eq_true_eq]

theorem decodeRune_encodeRune (n : Nat) (rest : GoString)
    (hv : n < 0xD800 ∨ (0xE000 ≤ n ∧ n < 0x110000)) :
    decodeRune (encodeRune n ++ rest) = (n, (encodeRune n).length) := by
  unfold encodeRune
  by_cases h1 : n < 0x80
  · simp [h1, decodeRune]
  · by_cases h2 : n < 0x800
    · have a1 : ¬ (0xC0 + n / 64 < 0x80) := by omega
      have a2 : ¬ (0xC0 + n / 64 < 0xC2) := by omega
      have a3 : 0xC0 + n / 64 < 0xE0 := by omega
      have a4 : inRange (0x80 + n % 64) 0x80 0xBF = true := by
        rw [inRange_iff]; omega
      simp [h1, h2, decodeRune, a1, a2, a3, a4]
      omega
    · have h3 : ¬ (0xD800 ≤ n ∧ n < 0xE000) := by omega
      by_cases h4 : n < 0x10000
      · have a1 : ¬ (0xE0 + n / 4096 < 0x80) := by omega
        have a2 : ¬ (0xE0 + n / 4096 < 0xC2) := by omega
        have a3 : ¬ (0xE0 + n / 4096 < 0xE0) := by omega
        have a4 : 0xE0 + n / 4096 < 0xF0 := by omega
        have a5 : inRange (0x80 + n / 64 % 64)
            (if 0xE0 + n / 4096 = 0xE0 then 0xA0 else 0x80)
            (if 0xE0 + n / 4096 = 0xED then 0x9F else 0xBF) = true := by
          rw [inRange_iff]
          split <;> split <;> omega
        have a6 : inRange (0x80 + n % 64) 0x80 0xBF = true := by
          rw [inRange_iff]; omega
        simp only [h1, h2, h3, h4, if_true, if_false, List.cons_append, List.nil_append,
          decodeRune, a1, a2, a3, a4, a5, a6, Bool.and_self, List.length_cons, List.length_nil]
        congr 1
        omega
      · have h5 : n < 0x110000 := by omega
        have a1 : ¬ (0xF0 + n / 262144 < 0x80) := by omega
        have a2 : ¬ (0xF0 + n / 262144 < 0xC2) := by omega
        have a3 : ¬ (0xF0 + n / 262144 < 0xE0) := by omega
        have a4 : ¬ (0xF0 + n / 262144 < 0xF0) := by omega
        have a4b : 0xF0 + n / 262144 < 0xF5 := by omega
        have a5 : inRange (0x80 + n / 4096 % 64)
            (if 0xF0 + n / 262144 = 0xF0 then 0x90 else 0x80)
            (if 0xF0 + n / 262144 = 0xF4 then 0x8F else 0xBF) = true := by
          rw [inRange_iff]
          split <;> split <;> omega
        have a6 : inRange (0x80 + n / 64 % 64) 0x80 0xBF = true := by
          rw [inRange_iff]; omega
        have a7 : inRange (0x80 + n % 64) 0x80 0xBF = true := by
          rw [inRange_iff]; omega
        simp only [h1, h2, h3, h4, h5, if_true, if_false, List.cons_append, List.nil_append,
          decodeRune, a1, a2, a3, a4, a4b, a5, a6, a7, Bool.and_self, List.length_cons,
          List.length_nil]
        congr 1
        omega

theorem ascii_step (n : Nat) (hn : n < 0x80) (g : Nat) (Y : GoString) :
    unquoteAux (g + 1) ((if htmlSafe n then [n] else escapeByte n) ++ Y)
      = emit [n] (unquoteAux g Y) := by
  interval_cases n <;>
    simp [htmlSafe, escapeByte, unquoteAux, hexDigit, getu4, hexVal, unescape, encodeRune]

theorem encodeRune_head (n : Nat) (h : 0x80 ≤ n) :
    ∃ b0 bs, encodeRune n = b0 :: bs ∧ 0x80 ≤ b0 ∧ bs ≠ [] := by
  unfold encodeRune
  have h1 : ¬ n < 0x80 := by omega
  rw [if_neg h1]
  split
  · exact ⟨_, _, rfl, by omega, by simp⟩
  · split
    · exact ⟨_, _, rfl, by omega, by simp⟩
    · split
      · exact ⟨_, _, rfl, by omega, by simp⟩
      · split
        · exact ⟨_, _, rfl, by omega, by simp⟩
        · exact ⟨_, _, rfl, by omega, by simp⟩

theorem length_encodeRune (n : Nat) :
    1 ≤ (encodeRune n).length ∧ (encodeRune n).length ≤ 4 := by
  unfold encodeRune
  split_ifs <;> simp

theorem rune_step (n : Nat) (hv : n < 0xD800 ∨ (0xE000 ≤ n ∧ n < 0x110000)) :
    ∃ E : GoString, (encodeRune n).length ≤ E.length ∧
      (∀ f X, appendStringAux (f + 1) (encodeRune n ++ X) = E ++ appendStringAux f X) ∧
      (∀ g Y, unquoteAux (g + 1) (E ++ Y) = emit (encodeRune n) (unquoteAux g Y)) := by
  by_cases h1 : n < 0x80
  · refine ⟨if htmlSafe n then [n] else escapeByte n, ?_, ?_, ?_⟩
    · have he : encodeRune n = [n] := by unfold encodeRune; rw [if_pos h1]
      rw [he]
      unfold escapeByte
      split
      · simp
      · split_ifs <;> simp
    · intro f X
      have he : encodeRune n = [n] := by unfold encodeRune; rw [if_pos h1]
      rw [he]
      simp [appendStringAux, h1]
    · intro g Y
      have he : encodeRune n = [n] := by unfold encodeRune; rw [if_pos h1]
      rw [he]
      exact ascii_step n h1 g Y
  · obtain ⟨b0, bs, he, hb0, hbs⟩ := encodeRune_head n (by omega)
    have hlen : 2 ≤ (encodeRune n).length := by
      rw [he]
      cases bs with
      | nil => exact absurd rfl hbs
      | cons b bs => simp
    have hb1 : ¬ b0 < 0x80 := by omega
    by_cases hls : n = 0x2028 ∨ n = 0x2029
    · refine ⟨[0x5C, 0x75, 0x32, 0x30, 0x32, hexDigit (n % 16)],
        by have := (length_encodeRune n).2; simp; omega, ?_, ?_⟩
      · intro f X
        have hd := decodeRune_encodeRune n X hv
        rw [he] at hd ⊢
        rw [List.cons_append] at hd ⊢
        have hne : ¬ (n = RuneError ∧ (b0 :: bs).length = 1) := by
          rintro ⟨_, h⟩
          rw [← he] at h
          omega
        have hdrop : List.drop (b0 :: bs).length (b0 :: (bs ++ X)) = X := by
          rw [← List.cons_append]
          exact List.drop_left _ _
        simp only [appendStringAux, hb1, if_false, hd, hne, hls, if_true, hdrop]
      · intro g Y
        rcases hls with h | h <;> subst h <;>
          simp [unquoteAux, hexDigit, getu4, hexVal, emit]
    · refine ⟨encodeRune n, Nat.le_refl _, ?_, ?_⟩
      · intro f X
        have hd := decodeRune_encodeRune n X hv
        rw [he] at hd ⊢
        rw [List.cons_append] at hd ⊢
        have hne : ¬ (n = RuneError ∧ (b0 :: bs).length = 1) := by
          rintro ⟨_, h⟩
          rw [← he] at h
          omega
        have hdrop : List.drop (b0 :: bs).length (b0 :: (bs ++ X)) = X := by
          rw [← List.cons_append]
          exact List.drop_left _ _
        have htake : List.take (b0 :: bs).length (b0 :: (bs ++ X)) = b0 :: bs := by
          rw [← List.cons_append]
          exact List.take_left _ _
        simp only [appendStringAux, hb1, if_false, hd, hne, hls, hdrop, htake, List.cons_append]
      · intro g Y
        have hd := decodeRune_encodeRune n Y hv
        rw [he] at hd ⊢
        rw [List.cons_append] at hd ⊢
        have hdrop : List.drop (b0 :: bs).length (b0 :: (bs ++ Y)) = Y := by
          rw [← List.cons_append]
          exact List.drop_left _ _
        have c1 : ¬ b0 = 0x22 := by omega
        have c2 : ¬ b0 = 0x5C := by omega
        have c3 : ¬ b0 < 0x20 := by omega
        simp only [unquoteAux, c1, c2, c3, hb1, if_false, hd, hdrop, he]


theorem decodeRune_wellformed (b : Nat) (r : GoString)
    (h : ¬ ((decodeRune (b :: r)).1 = RuneError ∧ (decodeRune (b :: r)).2 = 1)) :
    ((decodeRune (b :: r)).1 < 0xD800 ∨
      (0xE000 ≤ (decodeRune (b :: r)).1 ∧ (decodeRune (b :: r)).1 < 0x110000)) ∧
    encodeRune (decodeRune (b :: r)).1 = (b :: r).take (decodeRune (b :: r)).2 ∧
    1 ≤ (decodeRune (b :: r)).2 ∧ (decodeRune (b :: r)).2 ≤ (b :: r).length := by
  unfold decodeRune at h ⊢
  by_cases h1 : b < 0x80
  · simp only [h1, if_true] at h ⊢
    refine ⟨Or.inl (by omega), ?_, by omega, by simp⟩
    unfold encodeRune
    simp [h1]
  · simp only [h1, if_false] at h ⊢
    by_cases h2 : b < 0xC2
    · simp only [h2, if_true] at h
      exact absurd ⟨by trivial, by trivial⟩ h
    · simp only [h2, if_false] at h ⊢
      by_cases h3 : b < 0xE0
      · simp only [h3, if_true] at h ⊢
        cases r with
        | nil => exact absurd ⟨by trivial, by trivial⟩ h
        | cons s1 r1 =>
          simp only at h ⊢
          by_cases hin : inRange s1 0x80 0xBF = true
          · simp only [hin, if_true] at h ⊢
            rw [inRange_iff] at hin
            have c1 : ¬ (b % 32 * 64 + s1 % 64 < 0x80) := by omega
            have c2 : b % 32 * 64 + s1 % 64 < 0x800 := by omega
            have e1 : 0xC0 + (b % 32 * 64 + s1 % 64) / 64 = b := by omega
            have e2 : 0x80 + (b % 32 * 64 + s1 % 64) % 64 = s1 := by omega
            refine ⟨Or.inl (by omega), ?_, by omega, by simp⟩
            unfold encodeRune
            rw [if_neg c1, if_pos c2, e1, e2]
            rfl
          · simp only [hin] at h
            exact absurd ⟨by trivial, by trivial⟩ h
      · simp only [h3, if_false] at h ⊢
        by_cases h4 : b < 0xF0
        · simp only [h4, if_true] at h ⊢
          rcases r with _ | ⟨s1, _ | ⟨s2, r2⟩⟩
          · exact absurd ⟨by trivial, by trivial⟩ h
          · exact absurd ⟨by trivial, by trivial⟩ h
          · simp only at h ⊢
            by_cases hin : (inRange s1 (if b = 0xE0 then 0xA0 else 0x80)
                (if b = 0xED then 0x9F else 0xBF) && inRange s2 0x80 0xBF) = true
            · simp only [hin, if_true] at h ⊢
              rw [Bool.and_eq_true, inRange_iff, inRange_iff] at hin
              obtain ⟨⟨hlo, hhi⟩, hs2⟩ := hin
              have hlo2 : (b = 0xE0 → 0xA0 ≤ s1) ∧ 0x80 ≤ s1 := by
                split at hlo <;> omega
              have hhi2 : (b = 0xED → s1 ≤ 0x9F) ∧ s1 ≤ 0xBF := by
                split at hhi <;> omega
              have c1 : ¬ (b % 16 * 4096 + s1 % 64 * 64 + s2 % 64 < 0x80) := by omega
              have c2 : ¬ (b % 16 * 4096 + s1 % 64 * 64 + s2 % 64 < 0x800) := by omega
              have c3 : ¬ (0xD800 ≤ b % 16 * 4096 + s1 % 64 * 64 + s2 % 64 ∧
                  b % 16 * 4096 + s1 % 64 * 64 + s2 % 64 < 0xE000) := by omega
              have c4 : b % 16 * 4096 + s1 % 64 * 64 + s2 % 64 < 0x10000 := by omega
              have e1 : 0xE0 + (b % 16 * 4096 + s1 % 64 * 64 + s2 % 64) / 4096 = b := by omega
              have e2 : 0x80 + (b % 16 * 4096 + s1 % 64 * 64 + s2 % 64) / 64 % 64 = s1 := by
                omega
              have e3 : 0x80 + (b % 16 * 4096 + s1 % 64 * 64 + s2 % 64) % 64 = s2 := by omega
              refine ⟨by omega, ?_, by omega, by simp⟩
              unfold encodeRune
              rw [if_neg c1, if_neg c2, if_neg c3, if_pos c4, e1, e2, e3]
              rfl
            · simp only [hin] at h
              exact absurd ⟨by trivial, by trivial⟩ h
        · simp only [h4, if_false] at h ⊢
          by_cases h5 : b < 0xF5
          · simp only [h5, if_true] at h ⊢
            rcases r with _ | ⟨s1, _ | ⟨s2, _ | ⟨s3, r3⟩⟩⟩
            · exact absurd ⟨by trivial, by trivial⟩ h
            · exact absurd ⟨by trivial, by trivial⟩ h
            · exact absurd ⟨by trivial, by trivial⟩ h
            · simp only at h ⊢
              by_cases hin : (inRange s1 (if b = 0xF0 then 0x90 else 0x80)
                  (if b = 0xF4 then 0x8F else 0xBF) && inRange s2 0x80 0xBF
                  && inRange s3 0x80 0xBF) = true
              · simp only [hin, if_true] at h ⊢
                rw [Bool.and_eq_true, Bool.and_eq_true, inRange_iff, inRange_iff,
                  inRange_iff] at hin
                obtain ⟨⟨⟨hlo, hhi⟩, hs2⟩, hs3⟩ := hin
                have hlo2 : (b = 0xF0 → 0x90 ≤ s1) ∧ 0x80 ≤ s1 := by
                  split at hlo <;> omega
                have hhi2 : (b = 0xF4 → s1 ≤ 0x8F) ∧ s1 ≤ 0xBF := by
                  split at hhi <;> omega
                have c1 : ¬ (b % 8 * 262144 + s1 % 64 * 4096 + s2 % 64 * 64 + s3 % 64
                    < 0x80) := by omega
                have c2 : ¬ (b % 8 * 262144 + s1 % 64 * 4096 + s2 % 64 * 64 + s3 % 64
                    < 0x800) := by omega
                have c3 : ¬ (0xD800 ≤ b % 8 * 262144 + s1 % 64 * 4096 + s2 % 64 * 64 + s3 % 64 ∧
                    b % 8 * 262144 + s1 % 64 * 4096 + s2 % 64 * 64 + s3 % 64 < 0xE000) := by
                  omega
                have c4 : ¬ (b % 8 * 262144 + s1 % 64 * 4096 + s2 % 64 * 64 + s3 % 64
                    < 0x10000) := by omega
                have c5 : b % 8 * 262144 + s1 % 64 * 4096 + s2 % 64 * 64 + s3 % 64
                    < 0x110000 := by omega
                have e1 : 0xF0 + (b % 8 * 262144 + s1 % 64 * 4096 + s2 % 64 * 64 + s3 % 64)
                    / 262144 = b := by omega
                have e2 : 0x80 + (b % 8 * 262144 + s1 % 64 * 4096 + s2 % 64 * 64 + s3 % 64)
                    / 4096 % 64 = s1 := by omega
                have e3 : 0x80 + (b % 8 * 262144 + s1 % 64 * 4096 + s2 % 64 * 64 + s3 % 64)
                    / 64 % 64 = s2 := by omega
                have e4 : 0x80 + (b % 8 * 262144 + s1 % 64 * 4096 + s2 % 64 * 64 + s3 % 64)
                    % 64 = s3 := by omega
                refine ⟨by omega, ?_, by omega, by simp⟩
                unfold encodeRune
                rw [if_neg c1, if_neg c2, if_neg c3, if_neg c4, if_pos c5, e1, e2, e3, e4]
                rfl
              · simp only [hin] at h
                exact absurd ⟨by trivial, by trivial⟩ h
          · simp only [h5, if_false] at h
            exact absurd ⟨by trivial, by trivial⟩ h

theorem replacement_step (g : Nat) (Y : GoString) :
    unquoteAux (g + 1) ([0x5C, 0x75, 0x66, 0x66, 0x66, 0x64] ++ Y)
      = emit [0xEF, 0xBF, 0xBD] (unquoteAux g Y) := by
  simp [unquoteAux, getu4, hexVal, encodeRune]

theorem literal_roundtrip (f : Nat) :
    ∀ (s : GoString) (f2 : Nat) (rest : GoString), s.length ≤ f → s.length < f2 →
      s.length ≤ (appendStringAux f s).length ∧
      unquoteAux f2 (appendStringAux f s ++ 0x22 :: rest)
        = some (toValidUTF8Aux f s, rest) := by
  induction f with
  | zero =>
    intro s f2 rest h1 h2
    have hs : s = [] := List.length_eq_zero.1 (Nat.le_zero.1 h1)
    subst hs
    obtain ⟨g, rfl⟩ : ∃ g, f2 = g + 1 := ⟨f2 - 1, by simp at h2; omega⟩
    simp [appendStringAux, toValidUTF8Aux, unquoteAux]
  | succ f ih =>
    intro s f2 rest h1 h2
    cases s with
    | nil =>
      obtain ⟨g, rfl⟩ : ∃ g, f2 = g + 1 := ⟨f2 - 1, by simp at h2; omega⟩
      simp [appendStringAux, toValidUTF8Aux, unquoteAux]
    | cons b r =>
      rw [List.length_cons] at h1 h2
      obtain ⟨g, rfl⟩ : ∃ g, f2 = g + 1 := ⟨f2 - 1, by omega⟩
      by_cases hbad : (decodeRune (b :: r)).1 = RuneError ∧ (decodeRune (b :: r)).2 = 1
      · have hb : ¬ b < 0x80 := by
          intro hlt
          have hd : decodeRune (b :: r) = (b, 1) := by simp [decodeRune, hlt]
          rw [hd] at hbad
          have := hbad.1
          unfold RuneError at this
          simp only at this
          omega
        obtain ⟨ihlen, ihdec⟩ := ih r g rest (by omega) (by omega)
        have henc : appendStringAux (f + 1) (b :: r)
            = [0x5C, 0x75, 0x66, 0x66, 0x66, 0x64] ++ appendStringAux f r := by
          simp only [appendStringAux, hb, if_false, hbad, and_self, if_true]
        have hval : toValidUTF8Aux (f + 1) (b :: r)
            = [0xEF, 0xBF, 0xBD] ++ toValidUTF8Aux f r := by
          simp only [toValidUTF8Aux, hbad, and_self, if_true]
        rw [henc, hval]
        constructor
        · rw [List.length_append, List.length_cons]
          simp only [List.length_cons, List.length_nil]
          omega
        · rw [List.append_assoc, replacement_step, ihdec]
          rfl
      · obtain ⟨hv, henr, hpos, hle⟩ := decodeRune_wellformed b r hbad
        obtain ⟨E, hE, hencE, hdecE⟩ := rune_step (decodeRune (b :: r)).1 hv
        have hsplit : b :: r = encodeRune (decodeRune (b :: r)).1
            ++ (b :: r).drop (decodeRune (b :: r)).2 := by
          rw [henr, List.take_append_drop]
        have hlen : (encodeRune (decodeRune (b :: r)).1).length = (decodeRune (b :: r)).2 := by
          rw [henr, List.length_take]
          exact Nat.min_eq_left hle
        have hdroplen : ((b :: r).drop (decodeRune (b :: r)).2).length
            = r.length + 1 - (decodeRune (b :: r)).2 := by
          rw [List.length_drop, List.length_cons]
        obtain ⟨ihlen, ihdec⟩ := ih ((b :: r).drop (decodeRune (b :: r)).2) g rest
          (by omega) (by omega)
        have henc : appendStringAux (f + 1) (b :: r)
            = E ++ appendStringAux f ((b :: r).drop (decodeRune (b :: r)).2) := by
          conv_lhs => rw [hsplit]
          exact hencE f _
        have hval : toValidUTF8Aux (f + 1) (b :: r)
            = encodeRune (decodeRune (b :: r)).1
              ++ toValidUTF8Aux f ((b :: r).drop (decodeRune (b :: r)).2) := by
          simp only [toValidUTF8Aux, hbad, if_false, henr]
        rw [henc, hval]
        constructor
        · rw [List.length_append, List.length_cons]
          omega
        · rw [List.append_assoc, hdecE, ihdec]
          rfl

theorem char_valid (c : Char) :
    c.toNat < 0xD800 ∨ (0xE000 ≤ c.toNat ∧ c.toNat < 0x110000) := by
  have h := c.valid
  unfold UInt32.isValidChar Nat.isValidChar at h
  unfold Char.toNat
  omega

theorem length_le_utf8 (cs : List Char) :
    cs.length ≤ (cs.flatMap (fun c => encodeRune c.toNat)).length := by
  induction cs with
  | nil => simp
  | cons c cs ih =>
    rw [List.flatMap_cons, List.length_append, List.length_cons]
    have := (length_encodeRune c.toNat).1
    omega

theorem toValidUTF8Aux_utf8 (cs : List Char) :
    ∀ f : Nat, cs.length ≤ f →
      toValidUTF8Aux f (cs.flatMap (fun c => encodeRune c.toNat))
        = cs.flatMap (fun c => encodeRune c.toNat) := by
  induction cs with
  | nil =>
    intro f _
    cases f <;> rfl
  | cons c cs ih =>
    intro f hf
    rw [List.length_cons] at hf
    obtain ⟨g, rfl⟩ : ∃ g, f = g + 1 := ⟨f - 1, by omega⟩
    rw [List.flatMap_cons]
    have hd := decodeRune_encodeRune c.toNat (cs.flatMap (fun c => encodeRune c.toNat))
      (char_valid c)
    have hlen := length_encodeRune c.toNat
    rcases he : encodeRune c.toNat with _ | ⟨b0, bs⟩
    · rw [he] at hlen
      simp at hlen
    · rw [he] at hd
      rw [List.cons_append] at hd ⊢
      have hgood : ¬ (c.toNat = RuneError ∧ (b0 :: bs).length = 1) := by
        rintro ⟨h1, h2⟩
        have hsmall : c.toNat < 0x80 := by
          by_contra hge
          obtain ⟨b0', bs', he', _, hne⟩ := encodeRune_head c.toNat (by omega)
          rw [he] at he'
          obtain ⟨_, hbs⟩ := List.cons.inj he'
          subst hbs
          cases bs with
          | nil => exact hne rfl
          | cons x xs => simp at h2
        unfold RuneError at h1
        omega
      have hdrop : List.drop (b0 :: bs).length (b0 :: (bs ++ cs.flatMap
          (fun c => encodeRune c.toNat))) = cs.flatMap (fun c => encodeRune c.toNat) := by
        rw [← List.cons_append]
        exact List.drop_left _ _
      have htake : List.take (b0 :: bs).length (b0 :: (bs ++ cs.flatMap
          (fun c => encodeRune c.toNat))) = b0 :: bs := by
        rw [← List.cons_append]
        exact List.take_left _ _
      simp only [toValidUTF8Aux, hd, hgood, if_false, hdrop, htake, ih g (by omega),
        List.cons_append]

theorem toValidUTF8_goString (text : String) : toValidUTF8 (goString text) = goString text := by
  unfold toValidUTF8 goString
  exact toValidUTF8Aux_utf8 text.data _ (length_le_utf8 text.data)

theorem parseElem_appendString (s more : GoString) :
    parseElem (appendString s ++ more) = some (toValidUTF8 s, more) := by
  have hshape : appendString s ++ more
      = 0x22 :: (appendStringAux s.length s ++ 0x22 :: more) := by
    simp [appendString]
  rw [hshape]
  show unquoteAux _ _ = _
  have h := literal_roundtrip s.length s
  have hlen := (h (s.length + 1) more (Nat.le_refl _) (by omega)).1
  exact (h _ more (Nat.le_refl _) (by rw [List.length_append, List.length_cons]; omega)).2

theorem skipSpace_cons_of_not_space (b : Nat) (r : GoString) (h : isSpace b = false) :
    skipSpace (b :: r) = b :: r := by
  unfold skipSpace
  rw [List.dropWhile_cons_of_neg]
  rw [h]
  simp

theorem intercalate_cons_cons (sep a b : GoString) (l : List GoString) :
    List.intercalate sep (a :: b :: l) = a ++ (sep ++ List.intercalate sep (b :: l)) := by
  simp [List.intercalate, List.intersperse]

theorem intercalate_singleton (sep a : GoString) : List.intercalate sep [a] = a := by
  simp [List.intercalate, List.intersperse]

theorem parseElems_literals (l : List GoString) :
    ∀ (x : GoString) (fuel : Nat) (tail : GoString), l.length < fuel →
      parseElems fuel (List.intercalate [0x2C] ((x :: l).map appendString) ++ 0x5D :: tail)
        = some ((x :: l).map toValidUTF8, tail) := by
  induction l with
  | nil =>
    intro x fuel tail hf
    obtain ⟨g, rfl⟩ : ∃ g, fuel = g + 1 := ⟨fuel - 1, by simp at hf; omega⟩
    simp only [List.map_cons, List.map_nil, intercalate_singleton]
    unfold parseElems
    rw [parseElem_appendString x (0x5D :: tail)]
    simp only
    rw [skipSpace_cons_of_not_space _ _ (by decide)]
  | cons y ys ih =>
    intro x fuel tail hf
    rw [List.length_cons] at hf
    obtain ⟨g, rfl⟩ : ∃ g, fuel = g + 1 := ⟨fuel - 1, by omega⟩
    have ih2 := ih y g tail (by omega)
    simp only [List.map_cons] at ih2 ⊢
    rw [intercalate_cons_cons, List.append_assoc, List.append_assoc]
    unfold parseElems
    rw [parseElem_appendString x
      ([0x2C] ++ (List.intercalate [0x2C] (appendString y :: List.map appendString ys)
          ++ 0x5D :: tail))]
    simp only [List.singleton_append]
    rw [skipSpace_cons_of_not_space _ _ (by decide)]
    simp only
    have hstart : ∃ r, List.intercalate [0x2C] (appendString y :: List.map appendString ys)
          ++ 0x5D :: tail = 0x22 :: r := by
      cases ys with
      | nil => exact ⟨_, by rw [List.map_nil, intercalate_singleton]; rfl⟩
      | cons z zs => exact ⟨_, by rw [List.map_cons, intercalate_cons_cons]; rfl⟩
    obtain ⟨r, hr⟩ := hstart
    rw [hr, skipSpace_cons_of_not_space _ _ (by decide), ← hr, ih2]
    rfl

theorem length_appendString_pos (src : GoString) : 1 ≤ (appendString src).length := by
  unfold appendString
  simp

theorem length_le_intercalate (l : List GoString) :
    l.length ≤ (List.intercalate [0x2C] (l.map appendString)).length := by
  induction l with
  | nil => simp
  | cons x xs ih =>
    have hx := length_appendString_pos x
    cases xs with
    | nil =>
      simp only [List.map_cons, List.map_nil, intercalate_singleton, List.length_cons,
        List.length_nil]
      omega
    | cons y ys =>
      simp only [List.map_cons] at ih ⊢
      rw [intercalate_cons_cons, List.length_append, List.length_append]
      simp only [List.length_cons, List.length_nil] at ih ⊢
      omega

theorem json_roundtrip_bytes (l : List GoString) :
    jsonUnmarshalStrings (jsonMarshalStrings (some l)) = some (some (l.map toValidUTF8)) := by
  cases l with
  | nil => rfl
  | cons x xs =>
    have hm : jsonMarshalStrings (some (x :: xs))
        = 0x5B :: (List.intercalate [0x2C] ((x :: xs).map appendString) ++ [0x5D]) := rfl
    have hstart : ∃ r, List.intercalate [0x2C] ((x :: xs).map appendString)
        ++ [0x5D] = 0x22 :: r := by
      cases xs with
      | nil => exact ⟨_, by simp only [List.map_cons, List.map_nil, intercalate_singleton]; rfl⟩
      | cons z zs =>
        exact ⟨_, by simp only [List.map_cons, intercalate_cons_cons]; rfl⟩
    obtain ⟨r, hr⟩ := hstart
    have hlen : xs.length < (0x22 :: r).length := by
      rw [← hr, List.length_append]
      have := length_le_intercalate (x :: xs)
      rw [List.length_cons] at this
      omega
    have hp := parseElems_literals xs x (0x22 :: r).length [] hlen
    rw [hr] at hp
    unfold jsonUnmarshalStrings
    rw [hm, skipSpace_cons_of_not_space _ _ (by decide)]
    simp only
    rw [hr, skipSpace_cons_of_not_space _ _ (by decide)]
    simp only
    rw [hp]
    rfl

theorem json_roundtrip_nil : jsonUnmarshalStrings (jsonMarshalStrings none) = some none := by
  rfl

theorem json_roundtrip (whatsNew : Option (List GoString)) :
    jsonUnmarshalStrings (jsonMarshalStrings whatsNew)
      = some (whatsNew.map (fun l => l.map toValidUTF8)) := by
  cases whatsNew with
  | none => exact json_roundtrip_nil
  | some l => exact json_roundtrip_bytes l

theorem json_roundtrip_texts (texts : List String) :
    jsonUnmarshalStrings (jsonMarshalStrings (some (texts.map goString)))
      = some (some (texts.map goString)) := by
  rw [json_roundtrip_bytes, List.map_map]
  have h : texts.map (toValidUTF8 ∘ goString) = texts.map goString :=
    List.map_congr_left (fun text _ => toValidUTF8_goString text)
  rw [h]

theorem find_updated_version (rows : List VersionRow) (f : VersionRow → VersionRow)
    (new : VersionRow) (hf : ∀ r, r.id = 1 → f r = new) (hnew : new.id = 1)
    (h : ∃ row ∈ rows, row.id = 1) :
    (rows.map (fun r => if r.id = 1 then f r else r)).find? (fun r => decide (r.id = 1))
      = some new := by
  induction rows with
  | nil =>
    obtain ⟨row, hr, _⟩ := h
    cases hr
  | cons r rest ih =>
    by_cases hr : r.id = 1
    · rw [List.map_cons, if_pos hr, hf r hr, List.find?_cons_of_pos]
      exact decide_eq_true hnew
    · rw [List.map_cons, if_neg hr, List.find?_cons_of_neg]
      · apply ih
        obtain ⟨row, hmem, hid⟩ := h
        rcases List.mem_cons.1 hmem with he | he
        · exact absurd (he ▸ hid) hr
        · exact ⟨row, he, hid⟩
      · simpa using hr

theorem getAppVersion_after_update (s : Store) (v : AppVersion) (hf : s.faults = [])
    (hrow : ∃ row ∈ s.db.app_version, row.id = 1) :
    (UpdateAppVersion s v).2 = none ∧
    (GetAppVersion (UpdateAppVersion s v).1).2
      = Except.ok (scanVersion (updatedVersionRow v (jsonMarshalStrings v.WhatsNew)
          (defaultVersionRow []))) := by
  have hu : UpdateAppVersion s v
      = (Store.mk (DB.mk (s.db.app_version.map (fun r =>
          if r.id = 1 then updatedVersionRow v (jsonMarshalStrings v.WhatsNew) r else r))
          s.db.in_app_messages) s.faults, none) := by
    unfold UpdateAppVersion
    exact dbExec_of_nil hf rfl
  rw [hu]
  refine ⟨rfl, ?_⟩
  have hf2 : (Store.mk (DB.mk (s.db.app_version.map (fun r =>
      if r.id = 1 then updatedVersionRow v (jsonMarshalStrings v.WhatsNew) r else r))
      s.db.in_app_messages) s.faults).faults = [] := hf
  unfold GetAppVersion
  simp only
  rw [dbQuery_of_nil hf2]
  unfold sqlSelectVersion
  simp only
  rw [find_updated_version s.db.app_version _
    (updatedVersionRow v (jsonMarshalStrings v.WhatsNew) (defaultVersionRow []))
    (fun r hr => by unfold updatedVersionRow; rw [hr]; rfl) rfl hrow]

/-! ## C2: round trip of the version record -/

/-- C2, counterexample. A what's-new string that is not valid UTF-8, here the
single byte 0xFF: `json.Marshal` writes it as the escape of U+FFFD, and
`GetAppVersion` returns the three bytes EF BF BD in its place, so the record
read back differs from the record written. -/
theorem updateAppVersion_roundtrip_invalid_utf8 :
    (UpdateAppVersion (versionStore []) (sampleVersion (some [[0xFF]]))).2 = none ∧
    (GetAppVersion (UpdateAppVersion (versionStore []) (sampleVersion (some [[0xFF]]))).1).2
      = Except.ok (sampleVersion (some [[0xEF, 0xBF, 0xBD]])) ∧
    sampleVersion (some [[0xEF, 0xBF, 0xBD]]) ≠ sampleVersion (some [[0xFF]]) :=
  ⟨rfl, rfl, by decide⟩

/-- C2, amended. In a store that holds the id = 1 row and whose storage engine
does not fault, for every `AppVersion`, `UpdateAppVersion` followed by
`GetAppVersion` succeeds and yields the record written, with every what's-new
string coerced to valid UTF-8 (each byte that is not part of a well-formed
sequence replaced by U+FFFD; a nil list stays nil, an empty list empty). Hence
the record read equals the record written in every field whenever the
what's-new list is nil or made of valid UTF-8 strings, the UTF-8 bytes of
texts. -/
theorem updateAppVersion_getAppVersion_roundtrip (s : Store) (v : AppVersion)
    (hf : s.faults = []) (hrow : ∃ row ∈ s.db.app_version, row.id = 1) :
    (UpdateAppVersion s v).2 = none ∧
    (GetAppVersion (UpdateAppVersion s v).1).2
      = Except.ok { v with WhatsNew := v.WhatsNew.map (fun l => l.map toValidUTF8) } ∧
    (∀ texts : List String, v.WhatsNew = none ∨ v.WhatsNew = some (texts.map goString) →
      (GetAppVersion (UpdateAppVersion s v).1).2 = Except.ok v) := by
  obtain ⟨h1, h2⟩ := getAppVersion_after_update s v hf hrow
  have hgen : (GetAppVersion (UpdateAppVersion s v).1).2
      = Except.ok { v with WhatsNew := v.WhatsNew.map (fun l => l.map toValidUTF8) } := by
    rw [h2]
    unfold scanVersion updatedVersionRow
    simp only [json_roundtrip]
  refine ⟨h1, hgen, ?_⟩
  intro texts hutf8
  have hrt : jsonUnmarshalStrings (jsonMarshalStrings v.WhatsNew) = some v.WhatsNew := by
    rcases hutf8 with h | h
    · rw [h, json_roundtrip_nil]
    · rw [h, json_roundtrip_texts]
  rw [h2]
  unfold scanVersion updatedVersionRow
  simp only [hrt]

/-- Witness of C2 amended: a list with escaped characters and multi-byte
text is read back as written, and in a list with an invalid byte that byte
alone is replaced. -/
theorem updateAppVersion_getAppVersion_roundtrip_witness :
    (versionStore []).faults = [] ∧
    (∃ row ∈ (versionStore []).db.app_version, row.id = 1) ∧
    (GetAppVersion (UpdateAppVersion (versionStore [])
        (sampleVersion (some [goString "a<b \"q\" & c\n", goString "✨ é 💬"]))).1).2
      = Except.ok (sampleVersion (some [goString "a<b \"q\" & c\n", goString "✨ é 💬"])) ∧
    (GetAppVersion (UpdateAppVersion (versionStore [])
        (sampleVersion (some [[0x61, 0xFF, 0x62], goString "é"]))).1).2
      = Except.ok (sampleVersion (some [[0x61, 0xEF, 0xBF, 0xBD, 0x62], goString "é"])) :=
  ⟨rfl, ⟨_, List.mem_singleton.2 rfl, rfl⟩,
    (updateAppVersion_getAppVersion_roundtrip (versionStore [])
      (sampleVersion (some [goString "a<b \"q\" & c\n", goString "✨ é 💬"]))
      rfl ⟨_, List.mem_singleton.2 rfl, rfl⟩).2.2 ["a<b \"q\" & c\n", "✨ é 💬"] (Or.inr rfl),
    (updateAppVersion_getAppVersion_roundtrip (versionStore [])
      (sampleVersion (some [[0x61, 0xFF, 0x62], goString "é"]))
      rfl ⟨_, List.mem_singleton.2 rfl, rfl⟩).2.1⟩

/-! ## C7: tolerant decode of the what's-new column -/

/-- C7. Whatever bytes the `whats_new` column of the selected row holds, when
the storage engine does not fault `GetAppVersion` succeeds and returns every
other field as stored; when `json.Unmarshal` returns an error on the column the
what's-new list is the empty list, and when it does not the list is the
decoded one. -/
theorem getAppVersion_tolerant_decode (s : Store) (row : VersionRow) (hf : s.faults = [])
    (hrow : s.db.app_version.find? (fun r => decide (r.id = 1)) = some row) :
    ∃ version, (GetAppVersion s).2 = Except.ok version ∧
      version.LatestVersion = row.latest_version ∧
      version.LatestVersionCode = row.latest_version_code ∧
      version.MinimumVersionCode = row.minimum_version_code ∧
      version.ForceUpdate = row.force_update ∧
      version.UpdateTitle = row.update_title ∧
      version.UpdateMessage = row.update_message ∧
      version.DownloadURL = row.download_url ∧
      version.ReleaseDate = row.release_date ∧
      (jsonUnmarshalStrings row.whats_new = none → version.WhatsNew = some []) ∧
      (∀ whatsNew, jsonUnmarshalStrings row.whats_new = some whatsNew →
        version.WhatsNew = whatsNew) := by
  refine ⟨scanVersion row, ?_, rfl, rfl, rfl, rfl, rfl, rfl, rfl, rfl, ?_, ?_⟩
  · unfold GetAppVersion
    rw [dbQuery_of_nil hf]
    unfold sqlSelectVersion
    rw [hrow]
  · intro h
    unfold scanVersion
    simp only [h]
  · intro whatsNew h
    unfold scanVersion
    simp only [h]

/-- Witness of C7: a column holding `["a", 1]`, on which `json.Unmarshal`
returns an error after decoding the first element. -/
theorem getAppVersion_tolerant_decode_witness :
    (versionStore (goString "[\"a\", 1]")).faults = [] ∧
    jsonUnmarshalStrings (goString "[\"a\", 1]") = none ∧
    (GetAppVersion (versionStore (goString "[\"a\", 1]"))).2
      = Except.ok (scanVersion { defaultVersionRow (goString "2025-11-01") with
          whats_new := goString "[\"a\", 1]" }) ∧
    (scanVersion { defaultVersionRow (goString "2025-11-01") with
          whats_new := goString "[\"a\", 1]" }).WhatsNew = some [] ∧
    ∃ version, (GetAppVersion (versionStore (goString "[\"a\", 1]"))).2 = Except.ok version ∧
      version.LatestVersion = goString "1.5.0" :=
  ⟨rfl, by decide, rfl, by decide,
    (getAppVersion_tolerant_decode (versionStore (goString "[\"a\", 1]")) _ rfl rfl).imp
      (fun _ h => ⟨h.1, h.2.1⟩)⟩

/-! ## C6: the default scenario, end to end -/

set_option maxRecDepth 100000 in
/-- C6. After the first start of an empty store, `GetAppConfigHandler` answers
200 with the default version (latest version "1.5.0", latest version code 150,
minimum version code 1, the six default what's-new lines, the day of the
start as release date) and exactly the three default messages, in the order
`promo_nov_2025` (10), `maintenance_alert` (8), `welcome_2025` (5). -/
theorem getAppConfigHandler_defaults (today : GoString) :
    ∃ config,
      (GetAppConfigHandler (InitDB { db := emptyDB, faults := [] } today).1).2
        = GetConfigResponse.ok config ∧
      config.AppVersion.LatestVersion = goString "1.5.0" ∧
      config.AppVersion.LatestVersionCode = 150 ∧
      config.AppVersion.MinimumVersionCode = 1 ∧
      config.AppVersion.WhatsNew = defaultWhatsNew ∧
      config.AppVersion.ReleaseDate = today ∧
      config.InAppMessages = some [promoMessage, maintenanceMessage, welcomeMessage] ∧
      (sliceList config.InAppMessages).map (fun m => m.ID)
        = [goString "promo_nov_2025", goString "maintenance_alert", goString "welcome_2025"] ∧
      (sliceList config.InAppMessages).map (fun m => m.Priority) = [10, 8, 5] := by
  refine ⟨{ AppVersion := scanVersion (defaultVersionRow today)
            InAppMessages := some [promoMessage, maintenanceMessage, welcomeMessage] },
    rfl, rfl, rfl, rfl, ?_, rfl, rfl, rfl, rfl⟩
  show (match jsonUnmarshalStrings (jsonMarshalStrings defaultWhatsNew) with
    | some whatsNew => whatsNew
    | none => some []) = defaultWhatsNew
  unfold defaultWhatsNew
  rw [json_roundtrip_texts]

end Burma2dConfig
